import Mathlib

/-!
Verification of the static-site page-generation pipeline of the
hannon-hill-kb repository (the Node generator script: parseArgs, string
cleaning, content-block classification, section grouping, page rendering
inputs, search-index building, filesystem writing and stale-page pruning).

Strings are modelled as `List Char`.  JavaScript `String.prototype.replace`
with a global literal (or two-literal alternation) pattern is modelled by
`ra` / `ra2`: scan left to right, replace each non-overlapping match and
continue after the inserted replacement, exactly as the JS engine does.
`localeCompare` is modelled as code-point comparison (all inputs considered
here are plain ASCII, where the two orders agree).
-/

deriving instance DecidableEq for Except

namespace KB

abbrev Str := List Char

/-- The non-breaking space character U+00A0. -/
def nbsp : Char := Char.ofNat 160

/-- JavaScript whitespace characters relevant to the inputs handled here
(space, tab, LF, CR, FF, VT, NBSP). -/
def isJsWs (c : Char) : Bool :=
  c = ' ' || c = '\t' || c = '\n' || c = '\r' ||
  c = '\x0b' || c = '\x0c' || c = nbsp

/-- Model of JS String.prototype.trim. -/
def jsTrim (s : Str) : Str :=
  ((s.dropWhile isJsWs).reverse.dropWhile isJsWs).reverse

/-- Fueled scanner behind `ra`; the fuel always dominates the string
length in actual use, so the fuel-exhausted branch is never taken. -/
def raF (p0 : Char) (ps r : Str) : Nat → Str → Str
  | 0, s => s
  | _ + 1, [] => []
  | fuel + 1, c :: s =>
    if (p0 :: ps).isPrefixOf (c :: s) then
      r ++ raF p0 ps r fuel ((c :: s).drop (ps.length + 1))
    else
      c :: raF p0 ps r fuel s

/-- Model of JS str.replace(/lit/g, r) for a literal pattern p0 :: ps:
scan left to right, on a match emit r and continue after the match. -/
def ra (p0 : Char) (ps r s : Str) : Str := raF p0 ps r s.length s

/-- Fueled scanner behind `ra2`. -/
def ra2F (p0 : Char) (ps : Str) (q0 : Char) (qs r : Str) : Nat → Str → Str
  | 0, s => s
  | _ + 1, [] => []
  | fuel + 1, c :: s =>
    if (p0 :: ps).isPrefixOf (c :: s) then
      r ++ ra2F p0 ps q0 qs r fuel ((c :: s).drop (ps.length + 1))
    else if (q0 :: qs).isPrefixOf (c :: s) then
      r ++ ra2F p0 ps q0 qs r fuel ((c :: s).drop (qs.length + 1))
    else
      c :: ra2F p0 ps q0 qs r fuel s

/-- Model of JS str.replace(/litA|litB/g, r): at each position the left
alternative is tried first. -/
def ra2 (p0 : Char) (ps : Str) (q0 : Char) (qs r s : Str) : Str :=
  ra2F p0 ps q0 qs r s.length s

/-- Source escapeHtml: chained global replaces, ampersand first. -/
def escapeHtml (s : Str) : Str :=
  ra '\'' [] "&#39;".toList
    (ra '"' [] "&quot;".toList
      (ra '>' [] "&gt;".toList
        (ra '<' [] "&lt;".toList
          (ra '&' [] "&amp;".toList s))))

/-- Source decodeEntities: chained global replaces, ampersand last.
The first replace decodes NBSP entities to a plain space. -/
def decodeEntities (s : Str) : Str :=
  ra '&' "amp;".toList "&".toList
    (ra2 '&' "#39;".toList '&' "apos;".toList "'".toList
      (ra '&' "quot;".toList "\"".toList
        (ra '&' "gt;".toList ">".toList
          (ra '&' "lt;".toList "<".toList
            (ra2 '&' "#160;".toList '&' "nbsp;".toList " ".toList s)))))

/-- Source normalizeWhitespace: CRLF to LF, then tab to two spaces. -/
def normalizeWhitespace (s : Str) : Str :=
  ra '\t' [] "  ".toList (ra '\r' "\n".toList "\n".toList s)

/-- Scanner behind `collapseSpaceNbsp`; pending records whether the
current position is inside a space/NBSP run already replaced. -/
def csn (pending : Bool) : Str → Str
  | [] => []
  | c :: s =>
    if c = ' ' || c = nbsp then
      if pending then csn true s else ' ' :: csn true s
    else
      c :: csn false s

/-- Model of the regex replace collapsing runs of space/NBSP to one space
(the replace of space-or-NBSP runs in cleanText). -/
def collapseSpaceNbsp (s : Str) : Str := csn false s

/-- Source cleanText. -/
def cleanText (s : Str) : Str :=
  jsTrim (collapseSpaceNbsp (normalizeWhitespace (decodeEntities s)))

/-! ### Content-block classification (splitContentToParagraphsAndLists) -/

/-- Helper for the blank-line separator regex: given the characters after
an initial newline, return the remainder after the greedy match of
whitespace-star followed by a final newline (the last newline reachable
through whitespace), or none if no such newline follows. -/
def sepTail : Str → Option Str
  | [] => none
  | c :: t =>
    if isJsWs c then
      match sepTail t with
      | some r => some r
      | none => if c = '\n' then some t else none
    else none

/-- Fueled scanner behind `splitBlank` (the model of str.split on the
blank-line regex: newline, whitespace-star, newline; the star greedy). -/
def splitBlankF : Nat → Str → List Str
  | 0, _ => [[]]
  | _ + 1, [] => [[]]
  | fuel + 1, c :: t =>
    if c = '\n' then
      match sepTail t with
      | some r => [] :: splitBlankF fuel r
      | none => List.modifyHead (c :: ·) (splitBlankF fuel t)
    else
      List.modifyHead (c :: ·) (splitBlankF fuel t)

def splitBlank (s : Str) : List Str := splitBlankF s.length s

def isBulletMarker (c : Char) : Bool := c = '-' || c = '*' || c = '•'

/-- Source isUnorderedLine: the trimmed line matches a bullet marker
followed by at least one whitespace character. -/
def isUnorderedLine (line : Str) : Bool :=
  match jsTrim line with
  | m :: w :: _ => isBulletMarker m && isJsWs w
  | _ => false

/-- Source isOrderedLine: the trimmed line matches digits, a dot or a
closing parenthesis, then at least one whitespace character. -/
def isOrderedLine (line : Str) : Bool :=
  let t := jsTrim line
  !(t.takeWhile Char.isDigit).isEmpty &&
    match t.dropWhile Char.isDigit with
    | p :: w :: _ => (p = '.' || p = ')') && isJsWs w
    | _ => false

/-- The anchored leading-marker replace of stripListMarker (bullet
alternative first, then digits-plus-dot-or-paren; the whitespace-plus is
greedy; no match leaves the line unchanged). -/
def stripMarkerCore (line : Str) : Str :=
  match line with
  | [] => []
  | c :: rest =>
    if isBulletMarker c then
      match rest with
      | w :: _ => if isJsWs w then rest.dropWhile isJsWs else line
      | [] => line
    else if (line.takeWhile Char.isDigit).isEmpty then line
    else
      match line.dropWhile Char.isDigit with
      | p :: w :: _ =>
        if (p = '.' || p = ')') && isJsWs w then
          ((line.dropWhile Char.isDigit).drop 1).dropWhile isJsWs
        else line
      | _ => line

/-- Source stripListMarker. -/
def stripListMarker (line : Str) : Str := jsTrim (stripMarkerCore line)

inductive Block where
  | ul (items : List Str)
  | ol (items : List Str)
  | p (text : Str)
deriving DecidableEq, Repr

/-- The groups obtained by splitting normalized content on blank lines,
trimming each piece and dropping empty pieces. -/
def contentGroups (raw : Str) : List Str :=
  ((splitBlank (normalizeWhitespace raw)).map jsTrim).filter (fun g => !g.isEmpty)

/-- The trimmed non-empty lines of one group. -/
def groupLines (g : Str) : List Str :=
  ((g.splitOn '\n').map jsTrim).filter (fun l => !l.isEmpty)

/-- Source splitContentToParagraphsAndLists, as the loop over groups. -/
def splitContentToParagraphsAndLists (raw : Str) : List Block :=
  (contentGroups raw).foldl
    (fun blocks group =>
      let lines := groupLines group
      if lines.isEmpty then blocks
      else if lines.all isUnorderedLine then
        blocks ++ [Block.ul (((lines.map (fun l => stripListMarker (cleanText l)))).filter
          (fun i => !i.isEmpty))]
      else if lines.all isOrderedLine then
        blocks ++ [Block.ol (((lines.map (fun l => stripListMarker (cleanText l)))).filter
          (fun i => !i.isEmpty))]
      else
        let t := cleanText (List.intercalate " ".toList lines)
        if t.isEmpty then blocks else blocks ++ [Block.p t])
    []

/-- Per-group classification as the code performs it (used to restate the
loop as a filterMap). -/
def classifyGroup (group : Str) : Option Block :=
  let lines := groupLines group
  if lines.isEmpty then none
  else if lines.all isUnorderedLine then
    some (Block.ul (((lines.map (fun l => stripListMarker (cleanText l)))).filter
      (fun i => !i.isEmpty)))
  else if lines.all isOrderedLine then
    some (Block.ol (((lines.map (fun l => stripListMarker (cleanText l)))).filter
      (fun i => !i.isEmpty)))
  else
    let t := cleanText (List.intercalate " ".toList lines)
    if t.isEmpty then none else some (Block.p t)

/-- Modelled from the spec: the classification the claim describes, in
which every block that is not an unordered or ordered list becomes a
single paragraph (no block is ever dropped). -/
def specClassifyGroup (group : Str) : Block :=
  let lines := groupLines group
  if lines.all isUnorderedLine then
    Block.ul (((lines.map (fun l => stripListMarker (cleanText l)))).filter
      (fun i => !i.isEmpty))
  else if lines.all isOrderedLine then
    Block.ol (((lines.map (fun l => stripListMarker (cleanText l)))).filter
      (fun i => !i.isEmpty))
  else
    Block.p (cleanText (List.intercalate " ".toList lines))

/-! ### Paths, slugs and labels -/

/-- Source normalizeArticlePath: posix separators, trim, strip leading and
trailing slash runs (the two anchored replaces). -/
def normalizeArticlePath (s : Str) : Str :=
  (((jsTrim s).dropWhile (fun c => c = '/')).reverse.dropWhile (fun c => c = '/')).reverse

/-- The strip-slashes step of buildSearchIndexDoc's url field. -/
def stripSlashes (s : Str) : Str :=
  ((s.dropWhile (fun c => c = '/')).reverse.dropWhile (fun c => c = '/')).reverse

/-- The non-empty segments of a slash-delimited path: models
path.split(slash).filter(Boolean), used by the source for section keys
and sidebar grouping.  path.join, which assembles the target directory
from the split segments, also skips empty segments, but in addition
collapses dot segments, so as a model of the joined output path this is
faithful only for paths containing no single-dot or double-dot segment
(the uniqueness claim C2 assumes exactly that of every surviving
article). -/
def segsOf (p : Str) : List Str :=
  (p.splitOn '/').filter (fun s => !s.isEmpty)

def capitalizeWord : Str → Str
  | [] => []
  | c :: r => c.toUpper :: r

/-- Source titleCaseFromSegment. -/
def titleCaseFromSegment (seg : Str) : Str :=
  List.intercalate " ".toList
    (((seg.splitOn '-').filter (fun s => !s.isEmpty)).map capitalizeWord)

def isLowerAlnum (c : Char) : Bool :=
  ('a' ≤ c && c ≤ 'z') || ('0' ≤ c && c ≤ '9')

/-- Scanner behind `slugCollapse`. -/
def slugC (pending : Bool) : Str → Str
  | [] => []
  | c :: s =>
    if isLowerAlnum c then c :: slugC false s
    else if pending then slugC true s
    else '-' :: slugC true s

/-- The replace of runs outside [a-z0-9] by a dash (slugify step two). -/
def slugCollapse (s : Str) : Str := slugC false s

/-- The strip of leading and trailing dash runs (slugify step three). -/
def trimDashes (s : Str) : Str :=
  ((s.dropWhile (fun c => c = '-')).reverse.dropWhile (fun c => c = '-')).reverse

/-- Scanner behind `collapseDashes`. -/
def cdash (pending : Bool) : Str → Str
  | [] => []
  | c :: s =>
    if c = '-' then
      if pending then cdash true s else '-' :: cdash true s
    else
      c :: cdash false s

/-- The collapse of multi-dash runs (slugify step four); collapsing every
run to one dash agrees with the source's replace of runs of length two or
more. -/
def collapseDashes (s : Str) : Str := cdash false s

/-- Source slugify. -/
def slugify (s : Str) : Str :=
  collapseDashes (trimDashes (slugCollapse (s.map Char.toLower)))

/-- Code-point comparison of strings; models localeCompare, with which it
agrees on the ASCII lower-case inputs used in concrete statements here. -/
def lexLt : Str → Str → Bool
  | [], [] => false
  | [], _ :: _ => true
  | _ :: _, [] => false
  | a :: as, b :: bs =>
    if a.val < b.val then true
    else if b.val < a.val then false
    else lexLt as bs

def lexLe (a b : Str) : Bool := !lexLt b a

/-- Stable insertion of x after every element y with le y x. -/
def sInsert {α : Type} (le : α → α → Bool) (x : α) : List α → List α
  | [] => [x]
  | y :: ys => if le y x then y :: sInsert le x ys else x :: y :: ys

/-- Stable sort, modelling Array.prototype.sort (stable per the spec of
ECMAScript) with a total comparator: insert each element, left to right,
into the sorted accumulator after its equals. -/
def stableSort {α : Type} (le : α → α → Bool) (l : List α) : List α :=
  l.foldl (fun acc x => sInsert le x acc) []

/-! ### Data model -/

structure CodeBlock where
  code : Str
  language : Str
  explanation : Str
deriving DecidableEq, Repr

structure ContentSection where
  header : Str
  isCloud : Str
  content : Str
  codeBlocks : List CodeBlock
deriving DecidableEq, Repr

structure Article where
  path : Str
  title : Str
  sections : List ContentSection
deriving DecidableEq, Repr

structure InputData where
  articles : List Article
deriving DecidableEq, Repr

/-- The CLI arguments relevant to the generation run (input and output
locations are abstracted away: the filesystem model is rooted at the
output directory). -/
structure Args where
  dryRun : Bool
  includePaths : Option (List Str)
  generateHome : Bool
  generateLandings : Bool
deriving DecidableEq, Repr

def defaultArgs : Args :=
  { dryRun := false, includePaths := none, generateHome := true, generateLandings := true }

/-- The loadData validation conditions that bear on behavior: every
article path and title is a non-empty string after trimming. -/
def ValidData (d : InputData) : Prop :=
  ∀ a ∈ d.articles, jsTrim a.path ≠ [] ∧ jsTrim a.title ≠ []

instance decValidData (d : InputData) : Decidable (ValidData d) :=
  inferInstanceAs (Decidable (∀ a ∈ d.articles, jsTrim a.path ≠ [] ∧ jsTrim a.title ≠ []))

/-! ### Section grouping and page models -/

/-- Source: article.path.split(slash).filter(Boolean)[0] or "misc". -/
def firstSegment (a : Article) : Str :=
  (segsOf a.path).headD "misc".toList

structure SectionModel where
  key : Str
  label : Str
  path : Str
  articles : List Article
  count : Nat
deriving DecidableEq, Repr

/-- Insertion order of the Map in buildSectionModels. -/
def groupKeysInOrder (arts : List Article) : List Str :=
  arts.foldl
    (fun acc a => if acc.contains (firstSegment a) then acc else acc ++ [firstSegment a]) []

def sortByTitle (arts : List Article) : List Article :=
  stableSort (fun a b => lexLe a.title b.title) arts

def sortByPath (arts : List Article) : List Article :=
  stableSort (fun a b => lexLe a.path b.path) arts

/-- Source buildSectionModels: group by first path segment in insertion
order, sort each group's articles by title, sort groups by label. -/
def buildSectionModels (arts : List Article) : List SectionModel :=
  stableSort (fun s t => lexLe s.label t.label)
    ((groupKeysInOrder arts).map (fun k =>
      let sorted := sortByTitle (arts.filter (fun a => firstSegment a == k))
      { key := k, label := titleCaseFromSegment k, path := k,
        articles := sorted, count := sorted.length }))

/-! ### Search index -/

structure SearchDoc where
  id : Str
  title : Str
  category : Str
  body : Str
  url : Str
deriving DecidableEq, Repr

/-- The body text of a search document: headers, contents and non-empty
cleaned explanations of all sections, joined with spaces, with space runs
collapsed and the result trimmed. -/
def searchBody (a : Article) : Str :=
  jsTrim (collapseSpaceNbsp (List.intercalate " ".toList (a.sections.map (fun s =>
    let header := cleanText s.header
    let content := cleanText s.content
    let explanation := List.intercalate " ".toList
      ((s.codeBlocks.map (fun b => cleanText b.explanation)).filter (fun e => !e.isEmpty))
    List.intercalate " ".toList
      ([header, content, explanation].filter (fun x => !x.isEmpty))))))

/-- Source buildSearchIndexDoc. -/
def buildSearchIndexDoc (a : Article) : SearchDoc :=
  { id := slugify a.path
    title := a.title
    category := titleCaseFromSegment (firstSegment a)
    body := searchBody a
    url := '/' :: (stripSlashes a.path ++ ['/']) }

/-! ### Code-block rendering (renderCodeBlocks) -/

/-- Source normalizeLanguage. -/
def normalizeLanguage (language : Str) : Str :=
  let raw := (jsTrim language).map Char.toLower
  if raw.isEmpty then "none".toList
  else if !(["markup", "html", "xml", "css", "javascript", "js", "json", "bash",
      "shell", "yaml", "yml", "sql", "velocity", "java", "python", "php"].map
      String.toList).contains raw then "none".toList
  else if raw = "js".toList then "javascript".toList
  else if raw = "shell".toList then "bash".toList
  else if raw = "yml".toList then "yaml".toList
  else if raw = "html".toList then "markup".toList
  else raw

def natStr (n : Nat) : Str := (Nat.repr n).toList

/-- The per-block identifier pageId-sN-cM built from the section index and
the block's position in the codeBlocks array. -/
def blockIdOf (pageId : Str) (sectionIndex i : Nat) : Str :=
  pageId ++ "-s".toList ++ natStr (sectionIndex + 1) ++ "-c".toList ++ natStr (i + 1)

/-- A rendered item of renderCodeBlocks: either a code-block component
(with its copy-target identifier and normalized language) or the
explanation paragraph that follows a block. -/
inductive RItem where
  | codeBlock (blockId : Str) (language : Str) (code : Str)
  | para (text : Str)
deriving DecidableEq, Repr

/-- Source renderCodeBlocks' loop from array index i onward: a block with
blank code and an explanation that cleans to empty is skipped; otherwise
the code block (when code is non-blank) and the explanation paragraph
(when non-empty) are emitted, the identifier taken from the array index. -/
def renderCodeBlocksFrom (pageId : Str) (sectionIndex : Nat) : Nat → List CodeBlock → List RItem
  | _, [] => []
  | i, b :: rest =>
    (let explanation := cleanText b.explanation
     let hasCode := !(jsTrim b.code).isEmpty
     if !hasCode && explanation.isEmpty then []
     else
       (if hasCode then
          [RItem.codeBlock (blockIdOf pageId sectionIndex i) (normalizeLanguage b.language) b.code]
        else []) ++
       (if !explanation.isEmpty then [RItem.para explanation] else []))
    ++ renderCodeBlocksFrom pageId sectionIndex (i + 1) rest

/-- Source renderCodeBlocks (loop starting at index 0). -/
def renderCodeBlocks (pageId : Str) (sectionIndex : Nat) (items : List CodeBlock) : List RItem :=
  renderCodeBlocksFrom pageId sectionIndex 0 items

/-! ### Pagination (renderPagination) -/

/-- Source renderPagination previous link: the element before the
article's findIndex position in the list the renderer was given. -/
def prevOf (art : Article) (arts : List Article) : Option Article :=
  match arts.findIdx? (fun x => x.path == art.path) with
  | some i => if 0 < i then arts[i - 1]? else none
  | none => none

/-- Source renderPagination next link: the element after the article's
findIndex position in the list the renderer was given. -/
def nextOf (art : Article) (arts : List Article) : Option Article :=
  match arts.findIdx? (fun x => x.path == art.path) with
  | some i => arts[i + 1]?
  | none => none

/-- Modelled from the spec: the sibling list the claim describes, the
title-sorted articles of the article's own section group. -/
def specSiblingList (a : Article) (sections : List SectionModel) : List Article :=
  match sections.find? (fun s => s.key == firstSegment a) with
  | some s => s.articles
  | none => []

/-- Modelled from the spec: previous link computed from the article's
position within its group's sibling list. -/
def specPrev (a : Article) (sections : List SectionModel) : Option Article :=
  prevOf a (specSiblingList a sections)

/-- Modelled from the spec: next link computed from the article's
position within its group's sibling list. -/
def specNext (a : Article) (sections : List SectionModel) : Option Article :=
  nextOf a (specSiblingList a sections)

/-! ### Filesystem model

Paths are segment lists relative to the output root (the resolved out
directory); the root itself is the empty list and always exists, matching
the code's refusal to remove the stop directory. -/

abbrev Seg := Str
abbrev FPath := List Seg

def idxSeg : Seg := "index.html".toList
def searchSeg : Seg := "search-index.json".toList

structure FS where
  files : List FPath
  dirs : List FPath
deriving DecidableEq, Repr

def emptyFS : FS := { files := [], dirs := [] }

/-- Source ensureDir (fs.mkdir recursive): create the directory and every
missing ancestor; a no-op under dry-run. -/
def ensureDirFS (fs : FS) (d : FPath) (dryRun : Bool) : FS :=
  if dryRun then fs
  else
    { fs with dirs := fs.dirs ++
        (((List.range d.length).map (fun i => d.take (i + 1))).filter
          (fun q => !fs.dirs.contains q)) }

/-- Source writeTextFile: create or overwrite the file; a no-op under
dry-run.  (File contents are tracked separately by the run summary.) -/
def writeFileFS (fs : FS) (p : FPath) (dryRun : Bool) : FS :=
  if dryRun then fs
  else if fs.files.contains p then fs
  else { fs with files := fs.files ++ [p] }

/-- Source removeFile (fs.unlink); a no-op under dry-run. -/
def removeFileFS (fs : FS) (p : FPath) (dryRun : Bool) : FS :=
  if dryRun then fs
  else { fs with files := fs.files.filter (fun q => q != p) }

/-- Whether readdir of d would return any entry: a file or directory whose
parent is d. -/
def hasEntriesFS (fs : FS) (d : FPath) : Bool :=
  fs.files.any (fun f => !f.isEmpty && f.dropLast == d) ||
    fs.dirs.any (fun c => !c.isEmpty && c.dropLast == d)

/-- Source removeDirIfEmptyRecursive: walk from the directory toward the
output root, removing (and recording) each directory found empty, stopping
at the root, at a missing directory (readdir ENOENT) or at the first
non-empty directory.  Under dry-run nothing is removed but the recording
logic still runs on the untouched filesystem. -/
def walkUpF (dryRun : Bool) : Nat → FS → FPath → FS × List FPath
  | 0, fs, _ => (fs, [])
  | fuel + 1, fs, current =>
    if current.isEmpty then (fs, [])
    else if !fs.dirs.contains current then (fs, [])
    else if hasEntriesFS fs current then (fs, [])
    else
      let fs1 := if dryRun then fs
        else { fs with dirs := fs.dirs.filter (fun q => q != current) }
      let step := walkUpF dryRun fuel fs1 current.dropLast
      (step.1, current :: step.2)

def walkUp (dryRun : Bool) (fs : FS) (current : FPath) : FS × List FPath :=
  walkUpF dryRun current.length fs current

/-- The expected index.html set of the run: home page (when enabled), one
per section landing (when enabled), one per surviving article. -/
def expectedIndexFiles (args : Args) (sections : List SectionModel)
    (sorted : List Article) : List FPath :=
  (if args.generateHome then [[idxSeg]] else [])
    ++ (if args.generateLandings then sections.map (fun s => [s.path, idxSeg]) else [])
    ++ sorted.map (fun a => segsOf a.path ++ [idxSeg])

/-! ### The run pipeline -/

/-- The dedupe loop of run(): normalize each path, keep the first article
per normalized path (with normalized path and cleaned title), record later
occurrences as duplicate warnings. -/
def dedupeArticles (arts : List Article) : List Article × List Str :=
  let final := arts.foldl
    (fun (acc : List Str × List Article × List Str) a =>
      let np := normalizeArticlePath a.path
      if acc.1.contains np then (acc.1, acc.2.1, acc.2.2 ++ [np])
      else (acc.1 ++ [np], acc.2.1 ++ [{ a with path := np, title := cleanText a.title }],
            acc.2.2))
    ([], [], [])
  (final.2.1, final.2.2)

/-- Recursive restatement of the dedupe loop (used to characterize it):
given the set of already-seen normalized paths, produce the kept articles
and the duplicate warnings of the remaining input. -/
def dedupeSpec (seen : List Str) : List Article → List Article × List Str
  | [] => ([], [])
  | a :: l =>
    let np := normalizeArticlePath a.path
    if seen.contains np then
      let rest := dedupeSpec seen l
      (rest.1, np :: rest.2)
    else
      let rest := dedupeSpec (seen ++ [np]) l
      ({ a with path := np, title := cleanText a.title } :: rest.1, rest.2)

inductive RunErr where
  | unknownIncludePaths (missing : List Str)
deriving DecidableEq, Repr

structure RunSummary where
  pageWrites : List FPath
  searchDocs : List SearchDoc
  staleFiles : List FPath
  dirsRemoved : List FPath
  duplicateWarnings : List Str
  sorted : List Article
  sections : List SectionModel
deriving DecidableEq, Repr

/-- The normalized include-path request of the run. -/
def requestedOf (args : Args) : Option (List Str) :=
  args.includePaths.map (fun ps => ps.map normalizeArticlePath)

/-- The articles surviving dedupe and the include filter. -/
def selectedOf (args : Args) (data : InputData) : List Article :=
  match requestedOf args with
  | some rs => (dedupeArticles data.articles).1.filter (fun a => rs.contains a.path)
  | none => (dedupeArticles data.articles).1

/-- The requested include paths absent after normalization. -/
def missingOf (args : Args) (data : InputData) : List Str :=
  match requestedOf args with
  | some rs => rs.filter (fun p => !((selectedOf args data).map (fun a => a.path)).contains p)
  | none => []

/-- The path-sorted surviving articles of the run. -/
def sortedOf (args : Args) (data : InputData) : List Article :=
  sortByPath (selectedOf args data)

/-- The section models of the run. -/
def sectionsOf (args : Args) (data : InputData) : List SectionModel :=
  buildSectionModels (sortedOf args data)

/-- The page-writing phase of run(): home page, section landings, article
pages, in that order, each preceded by ensureDir; returns the filesystem
and the ordered list of page paths passed to writeTextFile. -/
def writePhase (args : Args) (sections : List SectionModel) (sorted : List Article)
    (fs0 : FS) : FS × List FPath :=
  let st1 := if args.generateHome then
      (writeFileFS (ensureDirFS fs0 [] args.dryRun) [idxSeg] args.dryRun, [([idxSeg] : FPath)])
    else (fs0, [])
  let st2 := if args.generateLandings then
      sections.foldl
        (fun (st : FS × List FPath) s =>
          (writeFileFS (ensureDirFS st.1 [s.path] args.dryRun) [s.path, idxSeg] args.dryRun,
           st.2 ++ [[s.path, idxSeg]]))
        st1
    else st1
  sorted.foldl
    (fun (st : FS × List FPath) a =>
      (writeFileFS (ensureDirFS st.1 (segsOf a.path) args.dryRun)
        (segsOf a.path ++ [idxSeg]) args.dryRun,
       st.2 ++ [segsOf a.path ++ [idxSeg]]))
    st2

/-- The stale index.html files of the filesystem state reached after the
page writes: every index.html under the output root not in the expected
set. -/
def staleValues (expected : List FPath) (fs : FS) : List FPath :=
  fs.files.filter (fun p => p.getLast? == some idxSeg && !expected.contains p)

/-- The stale-deletion phase of run(): delete each stale file and prune
the directories emptied by the deletion, collecting the removed
directories. -/
def prunePhase (dryRun : Bool) (stale : List FPath) (fs : FS) : FS × List FPath :=
  stale.foldl
    (fun (st : FS × List FPath) f =>
      let fsA := removeFileFS st.1 f dryRun
      let step := walkUp dryRun fsA f.dropLast
      (step.1, st.2 ++ step.2))
    (fs, [])

/-- Source run(), from validated input data onward, acting on the
filesystem model rooted at the output directory: dedupe, include-filter
(failing before any write when a requested path is missing), sort, build
models, write home/landing/article pages, collect search documents, delete
stale index.html files and prune emptied directories, then write the
search index.  The returned filesystem is the final state (the input state
when the run failed); the summary records the page writes attempted (also
under dry-run), search documents, stale deletions, removed directories and
duplicate warnings. -/
def runModel (args : Args) (data : InputData) (fs0 : FS) :
    FS × Except RunErr RunSummary :=
  if !(missingOf args data).isEmpty then
    (fs0, .error (.unknownIncludePaths (missingOf args data)))
  else
    let sorted := sortedOf args data
    let sections := sectionsOf args data
    let w := writePhase args sections sorted fs0
    let stale := staleValues (expectedIndexFiles args sections sorted) w.1
    let pr := prunePhase args.dryRun stale w.1
    let fs5 := writeFileFS (ensureDirFS pr.1 [] args.dryRun) [searchSeg] args.dryRun
    (fs5, .ok
      { pageWrites := w.2, searchDocs := sorted.map buildSearchIndexDoc,
        staleFiles := stale, dirsRemoved := pr.2,
        duplicateWarnings := (dedupeArticles data.articles).2,
        sorted := sorted, sections := sections })

/-- Filesystem well-formedness: every file and directory is below the root
and all its proper ancestors exist as directories.  Any tree reachable
through a real filesystem satisfies this. -/
def WF (fs : FS) : Prop :=
  (∀ f ∈ fs.files, f ≠ [] ∧ ∀ i < f.length, 0 < i → f.take i ∈ fs.dirs) ∧
  (∀ d ∈ fs.dirs, d ≠ [] ∧ ∀ i < d.length, 0 < i → d.take i ∈ fs.dirs)

/-- Per-character description of escapeHtml: the block each input
character contributes to the escaped output. -/
def escChar (c : Char) : Str :=
  if c = '&' then "&amp;".toList
  else if c = '<' then "&lt;".toList
  else if c = '>' then "&gt;".toList
  else if c = '"' then "&quot;".toList
  else if c = '\'' then "&#39;".toList
  else [c]

/-- Per-character state of escaped text after the lt-decoding stage of
decodeEntities. -/
def escChar2 (c : Char) : Str :=
  if c = '&' then "&amp;".toList
  else if c = '>' then "&gt;".toList
  else if c = '"' then "&quot;".toList
  else if c = '\'' then "&#39;".toList
  else [c]

/-- Per-character state after the gt-decoding stage. -/
def escChar3 (c : Char) : Str :=
  if c = '&' then "&amp;".toList
  else if c = '"' then "&quot;".toList
  else if c = '\'' then "&#39;".toList
  else [c]

/-- Per-character state after the quot-decoding stage. -/
def escChar4 (c : Char) : Str :=
  if c = '&' then "&amp;".toList
  else if c = '\'' then "&#39;".toList
  else [c]

/-- Per-character state after the apostrophe-decoding stage: only the
ampersand entity remains. -/
def escChar5 (c : Char) : Str :=
  if c = '&' then "&amp;".toList
  else [c]

/-!
## Theorems

The remainder of the file settles the specification claims against the
definitions above.
-/

theorem foldl_append_toList_eq_filterMap {α β : Type} (f : α → Option β) :
    ∀ (l : List α) (acc : List β),
      l.foldl (fun bs a => bs ++ (f a).toList) acc = acc ++ l.filterMap f := by
  intro l
  induction l with
  | nil => intro acc; simp
  | cons a l ih =>
    intro acc
    simp only [List.foldl_cons, List.filterMap_cons]
    rw [ih]
    cases f a <;> simp

theorem splitContent_step_eq (blocks : List Block) (group : Str) :
    (let lines := groupLines group
     if lines.isEmpty then blocks
     else if lines.all isUnorderedLine then
       blocks ++ [Block.ul (((lines.map (fun l => stripListMarker (cleanText l)))).filter
         (fun i => !i.isEmpty))]
     else if lines.all isOrderedLine then
       blocks ++ [Block.ol (((lines.map (fun l => stripListMarker (cleanText l)))).filter
         (fun i => !i.isEmpty))]
     else
       let t := cleanText (List.intercalate " ".toList lines)
       if t.isEmpty then blocks else blocks ++ [Block.p t]) =
    blocks ++ (classifyGroup group).toList := by
  simp only [classifyGroup]
  split
  · simp
  · split
    · simp
    · split
      · simp
      · split <;> simp

/-- Claim C7, corrected form: the content splitter is exactly the
per-group classification of classifyGroup over the blank-line groups — a
group all of whose (trimmed, non-empty) lines are bullet lines becomes an
unordered list, one all of whose lines are numeric-marker lines becomes an
ordered list, and any other group becomes a single paragraph with internal
newlines flattened to spaces unless its cleaned text is empty, in which
case it is omitted. -/
theorem c7_content_classification (raw : Str) :
    splitContentToParagraphsAndLists raw = (contentGroups raw).filterMap classifyGroup := by
  unfold splitContentToParagraphsAndLists
  have h : ∀ (gs : List Str) (acc : List Block),
      gs.foldl
        (fun blocks group =>
          let lines := groupLines group
          if lines.isEmpty then blocks
          else if lines.all isUnorderedLine then
            blocks ++ [Block.ul (((lines.map (fun l => stripListMarker (cleanText l)))).filter
              (fun i => !i.isEmpty))]
          else if lines.all isOrderedLine then
            blocks ++ [Block.ol (((lines.map (fun l => stripListMarker (cleanText l)))).filter
              (fun i => !i.isEmpty))]
          else
            let t := cleanText (List.intercalate " ".toList lines)
            if t.isEmpty then blocks else blocks ++ [Block.p t])
        acc = acc ++ gs.filterMap classifyGroup := by
    intro gs
    induction gs with
    | nil => intro acc; simp
    | cons g gs ih =>
      intro acc
      simp only [List.foldl_cons, List.filterMap_cons]
      rw [splitContent_step_eq acc g, ih]
      cases classifyGroup g <;> simp
  simpa using h (contentGroups raw) []

/-- Claim C7 counterexample: the content consisting of the single entity
"&#160;" yields one blank-line group that is neither an unordered nor an
ordered list, yet the splitter emits no block at all, while the claimed
classification would emit a paragraph for it. -/
theorem c7_counterexample :
    splitContentToParagraphsAndLists ("&#160;".toList) = [] ∧
    contentGroups ("&#160;".toList) ≠ [] ∧
    (∀ g ∈ contentGroups ("&#160;".toList),
      (groupLines g).all isUnorderedLine = false ∧
      (groupLines g).all isOrderedLine = false) ∧
    (contentGroups ("&#160;".toList)).map specClassifyGroup ≠
      splitContentToParagraphsAndLists ("&#160;".toList) := by
  refine ⟨by decide, by decide, by decide, by decide⟩

/-- Claim C10: a code block whose code is blank and whose explanation
cleans to the empty string contributes nothing to the rendered output,
while the blocks after it keep identifiers derived from their original
array index (the index stream skips over the omitted block). -/
theorem c10_empty_block_omitted (pageId : Str) (sectionIndex k : Nat)
    (pre post : List CodeBlock) (b : CodeBlock)
    (hcode : jsTrim b.code = []) (hexp : cleanText b.explanation = []) :
    renderCodeBlocksFrom pageId sectionIndex k (pre ++ b :: post) =
      renderCodeBlocksFrom pageId sectionIndex k pre ++
        renderCodeBlocksFrom pageId sectionIndex (k + pre.length + 1) post := by
  induction pre generalizing k with
  | nil =>
    simp only [List.nil_append, List.length_nil, Nat.add_zero]
    rw [renderCodeBlocksFrom]
    simp [hcode, hexp, renderCodeBlocksFrom]
  | cons c pre ih =>
    simp only [List.cons_append, renderCodeBlocksFrom, List.length_cons, List.append_eq]
    rw [ih (k + 1)]
    have harith : k + 1 + pre.length + 1 = k + (pre.length + 1) + 1 := by omega
    rw [harith, List.append_assoc]

theorem sInsert_perm {α : Type} (le : α → α → Bool) (x : α) :
    ∀ l : List α, (sInsert le x l).Perm (x :: l) := by
  intro l
  induction l with
  | nil => simp [sInsert]
  | cons y ys ih =>
    rw [sInsert]
    split
    · exact ((ih.cons y).trans (List.Perm.swap x y ys))
    · exact List.Perm.refl _

theorem foldl_sInsert_perm {α : Type} (le : α → α → Bool) :
    ∀ (l acc : List α), (l.foldl (fun acc x => sInsert le x acc) acc).Perm (acc ++ l) := by
  intro l
  induction l with
  | nil => intro acc; simp
  | cons a l ih =>
    intro acc
    simp only [List.foldl_cons]
    exact (ih (sInsert le a acc)).trans
      (((sInsert_perm le a acc).append_right l).trans List.perm_middle.symm)

theorem stableSort_perm {α : Type} (le : α → α → Bool) (l : List α) :
    (stableSort le l).Perm l := by
  simpa [stableSort] using foldl_sInsert_perm le l []

theorem groupKeys_sound (arts : List Article) :
    ∀ k ∈ groupKeysInOrder arts, ∃ a ∈ arts, k = firstSegment a := by
  have h : ∀ (l : List Article) (acc : List Str) (k : Str),
      k ∈ l.foldl
        (fun acc a => if acc.contains (firstSegment a) then acc else acc ++ [firstSegment a])
        acc →
      k ∈ acc ∨ ∃ a ∈ l, k = firstSegment a := by
    intro l
    induction l with
    | nil => intro acc k hk; exact Or.inl hk
    | cons a l ih =>
      intro acc k hk
      simp only [List.foldl_cons] at hk
      rcases ih _ k hk with hacc | ⟨b, hb, rfl⟩
      · split at hacc
        · exact Or.inl hacc
        · rcases List.mem_append.1 hacc with h1 | h1
          · exact Or.inl h1
          · exact Or.inr ⟨a, List.mem_cons_self .., List.mem_singleton.1 h1⟩
      · exact Or.inr ⟨b, List.mem_cons_of_mem _ hb, rfl⟩
  intro k hk
  rcases h arts [] k hk with h1 | h1
  · cases h1
  · exact h1

theorem groupKeys_nodup (arts : List Article) : (groupKeysInOrder arts).Nodup := by
  have h : ∀ (l : List Article) (acc : List Str), acc.Nodup →
      (l.foldl
        (fun acc a => if acc.contains (firstSegment a) then acc else acc ++ [firstSegment a])
        acc).Nodup := by
    intro l
    induction l with
    | nil => intro acc hacc; exact hacc
    | cons a l ih =>
      intro acc hacc
      simp only [List.foldl_cons]
      apply ih
      split
      · exact hacc
      · rename_i hcont
        refine List.Nodup.append hacc (List.nodup_singleton _) ?_
        intro x hx hx1
        simp only [List.mem_singleton] at hx1
        subst hx1
        exact hcont (by simpa [List.elem_iff] using hx)
  exact h arts [] List.nodup_nil

theorem firstSegment_ne_nil (a : Article) : firstSegment a ≠ [] := by
  unfold firstSegment segsOf
  cases h : (a.path.splitOn '/').filter (fun s => !s.isEmpty) with
  | nil => decide
  | cons x xs =>
    simp only [List.headD_cons]
    have hx : x ∈ (a.path.splitOn '/').filter (fun s => !s.isEmpty) := by
      rw [h]; exact List.mem_cons_self ..
    have := (List.mem_filter.1 hx).2
    simp only [Bool.not_eq_true'] at this
    intro hc
    subst hc
    simp [List.isEmpty] at this

theorem map_left_inverse {α β : Type} (g : β → α) (F : α → β) (h : ∀ a, g (F a) = a) :
    ∀ l : List α, (l.map F).map g = l := by
  intro l
  induction l with
  | nil => rfl
  | cons a l ih => simp [h, ih]

theorem sectionModels_path_perm (arts : List Article) :
    ((buildSectionModels arts).map (fun s => s.path)).Perm (groupKeysInOrder arts) := by
  unfold buildSectionModels
  have hperm := stableSort_perm (fun s t => lexLe s.label t.label)
    ((groupKeysInOrder arts).map (fun k =>
      let sorted := sortByTitle (arts.filter (fun a => firstSegment a == k))
      ({ key := k, label := titleCaseFromSegment k, path := k,
         articles := sorted, count := sorted.length } : SectionModel)))
  have h2 := hperm.map (fun s : SectionModel => s.path)
  rwa [map_left_inverse (fun s : SectionModel => s.path) _ (fun k => rfl)] at h2

theorem foldl_pair_snd {α β γ : Type} (g : γ → α → γ) (h : α → β) :
    ∀ (l : List α) (st : γ × List β),
      l.foldl (fun st x => (g st.1 x, st.2 ++ [h x])) st =
        (l.foldl g st.1, st.2 ++ l.map h) := by
  intro l
  induction l with
  | nil => intro st; simp
  | cons a l ih =>
    intro st
    simp only [List.foldl_cons, List.map_cons]
    rw [ih]
    simp

theorem articleFold_snd (args : Args) :
    ∀ (l : List Article) (st : FS × List FPath),
      (l.foldl
        (fun (st : FS × List FPath) a =>
          (writeFileFS (ensureDirFS st.1 (segsOf a.path) args.dryRun)
            (segsOf a.path ++ [idxSeg]) args.dryRun,
           st.2 ++ [segsOf a.path ++ [idxSeg]]))
        st).2 = st.2 ++ l.map (fun a => segsOf a.path ++ [idxSeg]) := by
  intro l
  induction l with
  | nil => intro st; simp
  | cons a l ih => intro st; simp only [List.foldl_cons, List.map_cons]; rw [ih]; simp

theorem landingFold_snd (args : Args) :
    ∀ (l : List SectionModel) (st : FS × List FPath),
      (l.foldl
        (fun (st : FS × List FPath) s =>
          (writeFileFS (ensureDirFS st.1 [s.path] args.dryRun) [s.path, idxSeg] args.dryRun,
           st.2 ++ [[s.path, idxSeg]]))
        st).2 = st.2 ++ l.map (fun s => [s.path, idxSeg]) := by
  intro l
  induction l with
  | nil => intro st; simp
  | cons s l ih => intro st; simp only [List.foldl_cons, List.map_cons]; rw [ih]; simp

theorem writePhase_snd (args : Args) (sections : List SectionModel)
    (sorted : List Article) (fs0 : FS) :
    (writePhase args sections sorted fs0).2 = expectedIndexFiles args sections sorted := by
  unfold writePhase expectedIndexFiles
  by_cases hh : args.generateHome <;> by_cases hl : args.generateLandings <;>
    simp only [hh, hl, if_true, if_false, articleFold_snd, landingFold_snd] <;> simp

theorem runModel_ok_elim (args : Args) (data : InputData) (fs0 : FS) (r : RunSummary)
    (hok : (runModel args data fs0).2 = .ok r) :
    missingOf args data = [] ∧
    r = { pageWrites := expectedIndexFiles args (sectionsOf args data) (sortedOf args data),
          searchDocs := (sortedOf args data).map buildSearchIndexDoc,
          staleFiles := staleValues
            (expectedIndexFiles args (sectionsOf args data) (sortedOf args data))
            (writePhase args (sectionsOf args data) (sortedOf args data) fs0).1,
          dirsRemoved := (prunePhase args.dryRun
            (staleValues (expectedIndexFiles args (sectionsOf args data) (sortedOf args data))
              (writePhase args (sectionsOf args data) (sortedOf args data) fs0).1)
            (writePhase args (sectionsOf args data) (sortedOf args data) fs0).1).2,
          duplicateWarnings := (dedupeArticles data.articles).2,
          sorted := sortedOf args data,
          sections := sectionsOf args data } := by
  unfold runModel at hok
  split at hok
  · cases hok
  · rename_i hm
    simp only [Bool.not_eq_true', ← Bool.not_eq_true] at hm
    have hmiss : missingOf args data = [] := by
      by_cases h : (missingOf args data).isEmpty
      · exact List.isEmpty_iff.1 h
      · simp [h] at hm
    refine ⟨hmiss, ?_⟩
    simp only [Except.ok.injEq] at hok
    rw [← hok]
    rw [writePhase_snd]

/-- Claim C4: the one-article example scenario writes exactly the home
page, the tools landing, the article page and the search index, whose
array holds exactly one record, with category Tools and url
/tools/date-tool/. -/
theorem c4_example_scenario :
    (runModel defaultArgs
      ⟨[⟨"tools/date-tool".toList, "Date Tool".toList,
        [⟨"Overview".toList, [], "DateTool formats dates.".toList, []⟩]⟩]⟩ emptyFS).1.files =
      [[idxSeg], ["tools".toList, idxSeg], ["tools".toList, "date-tool".toList, idxSeg],
        [searchSeg]] ∧
    ((runModel defaultArgs
      ⟨[⟨"tools/date-tool".toList, "Date Tool".toList,
        [⟨"Overview".toList, [], "DateTool formats dates.".toList, []⟩]⟩]⟩ emptyFS).2.map
      (fun r => r.searchDocs.map (fun d => (d.category, d.url)))) =
      .ok [("Tools".toList, "/tools/date-tool/".toList)] := by
  exact ⟨by decide, by decide⟩

/-- Claim C2 counterexample: the valid single-article input with the
one-segment path tools makes the run emit the landing page path
tools/index.html twice — once as the section landing of group tools and
once as the article page — so the emitted page paths are not pairwise
distinct. -/
theorem c2_counterexample :
    ValidData ⟨[⟨"tools".toList, "Tools Guide".toList, []⟩]⟩ ∧
    ((runModel defaultArgs ⟨[⟨"tools".toList, "Tools Guide".toList, []⟩]⟩ emptyFS).2.map
      (fun r => r.pageWrites)) =
      .ok [[idxSeg], ["tools".toList, idxSeg], ["tools".toList, idxSeg]] ∧
    ¬ ([[idxSeg], ["tools".toList, idxSeg], ["tools".toList, idxSeg]] : List FPath).Nodup := by
  refine ⟨by decide, by decide, by decide⟩

/-- Claim C2, corrected form: when every surviving article's normalized
path has at least two non-empty segments, none of its segments is the
single dot or double dot that path.join would collapse, and no two
surviving articles share the same segment sequence, the emitted page
paths (home, one per section landing, one per surviving article) are
pairwise distinct, a successful run's page writes are exactly the
expected index list, and no emitted path contains a dot segment — so
path.join performs no normalization on them and assembles exactly these
paths. -/
theorem c2_uniqueness_amended (args : Args) (data : InputData) (fs0 : FS)
    (hseg : ∀ a ∈ sortedOf args data, 2 ≤ (segsOf a.path).length)
    (hdot : ∀ a ∈ sortedOf args data, ∀ s ∈ segsOf a.path,
      s ≠ ".".toList ∧ s ≠ "..".toList)
    (hnodup : ((sortedOf args data).map (fun a => segsOf a.path)).Nodup) :
    (∀ r, (runModel args data fs0).2 = .ok r →
      r.pageWrites = expectedIndexFiles args (sectionsOf args data) (sortedOf args data)) ∧
    (expectedIndexFiles args (sectionsOf args data) (sortedOf args data)).Nodup ∧
    (∀ p ∈ expectedIndexFiles args (sectionsOf args data) (sortedOf args data),
      ∀ s ∈ p, s ≠ ".".toList ∧ s ≠ "..".toList) := by
  refine ⟨?_, ?_, ?_⟩
  · intro r hok
    exact congrArg RunSummary.pageWrites (runModel_ok_elim args data fs0 r hok).2
  case refine_3 =>
    intro p hp s hs
    unfold expectedIndexFiles at hp
    rcases List.mem_append.1 hp with h1 | h1
    · rcases List.mem_append.1 h1 with h2 | h2
      · split at h2
        · have hp1 : p = [idxSeg] := List.mem_singleton.1 h2
          subst hp1
          have hs1 : s = idxSeg := List.mem_singleton.1 hs
          subst hs1
          exact ⟨by decide, by decide⟩
        · exact absurd h2 (List.not_mem_nil p)
      · split at h2
        · obtain ⟨sec, hsec, rfl⟩ := List.mem_map.1 h2
          have hkey : ∃ a ∈ sortedOf args data, sec.path = firstSegment a := by
            have hmem : sec.path ∈ (sectionsOf args data).map (fun t => t.path) :=
              List.mem_map.2 ⟨sec, hsec, rfl⟩
            have hperm := sectionModels_path_perm (sortedOf args data)
            exact groupKeys_sound (sortedOf args data) sec.path (hperm.mem_iff.1 hmem)
          obtain ⟨a, ha, hpa⟩ := hkey
          have hpathok : sec.path ≠ ".".toList ∧ sec.path ≠ "..".toList := by
            rw [hpa]
            unfold firstSegment
            cases hsg : segsOf a.path with
            | nil => exact ⟨by decide, by decide⟩
            | cons h t =>
              have hin : h ∈ segsOf a.path := by
                rw [hsg]
                exact List.mem_cons_self ..
              exact hdot a ha h hin
          rcases List.mem_cons.1 hs with rfl | hs2
          · exact hpathok
          · have hs3 : s = idxSeg := List.mem_singleton.1 hs2
            subst hs3
            exact ⟨by decide, by decide⟩
        · exact absurd h2 (List.not_mem_nil p)
    · obtain ⟨a, ha, rfl⟩ := List.mem_map.1 h1
      rcases List.mem_append.1 hs with hs1 | hs2
      · exact hdot a ha s hs1
      · have hs3 : s = idxSeg := List.mem_singleton.1 hs2
        subst hs3
        exact ⟨by decide, by decide⟩
  · unfold expectedIndexFiles
    have hsecnodup : ((sectionsOf args data).map (fun s => s.path)).Nodup :=
      ((sectionModels_path_perm (sortedOf args data)).nodup_iff).2
        (groupKeys_nodup (sortedOf args data))
    have hB : ((sectionsOf args data).map (fun s => ([s.path, idxSeg] : FPath))).Nodup := by
      have hrw : (sectionsOf args data).map (fun s => ([s.path, idxSeg] : FPath)) =
          ((sectionsOf args data).map (fun s => s.path)).map
            (fun p => ([p, idxSeg] : FPath)) := by
        rw [List.map_map]; rfl
      rw [hrw]
      exact hsecnodup.map (fun p q hpq => by simpa using hpq)
    have hC : ((sortedOf args data).map (fun a => segsOf a.path ++ [idxSeg])).Nodup := by
      have hrw : (sortedOf args data).map (fun a => segsOf a.path ++ [idxSeg]) =
          ((sortedOf args data).map (fun a => segsOf a.path)).map
            (fun v => v ++ [idxSeg]) := by
        rw [List.map_map]; rfl
      rw [hrw]
      exact hnodup.map (fun v w hvw => List.append_cancel_right hvw)
    have hClen : ∀ c ∈ (sortedOf args data).map (fun a => segsOf a.path ++ [idxSeg]),
        3 ≤ c.length := by
      intro c hc
      obtain ⟨a, ha, rfl⟩ := List.mem_map.1 hc
      have := hseg a ha
      simp only [List.length_append, List.length_singleton]
      omega
    have hBlen : ∀ b ∈ (sectionsOf args data).map (fun s => ([s.path, idxSeg] : FPath)),
        b.length = 2 := by
      intro b hb
      obtain ⟨s, _, rfl⟩ := List.mem_map.1 hb
      rfl
    have hBC : ((sectionsOf args data).map (fun s => ([s.path, idxSeg] : FPath)) ++
        (sortedOf args data).map (fun a => segsOf a.path ++ [idxSeg])).Nodup := by
      refine hB.append hC ?_
      intro x hx hx2
      have h1 := hBlen x hx
      have h2 := hClen x hx2
      omega
    by_cases hh : args.generateHome <;> by_cases hl : args.generateLandings <;>
      simp only [hh, hl, if_true, if_false, List.nil_append]
    · refine (List.nodup_cons).2 ⟨?_, hBC⟩
      intro hmem
      rcases List.mem_append.1 hmem with h1 | h1
      · have := hBlen _ h1; simp at this
      · have := hClen _ h1; simp at this
    · refine (List.nodup_cons).2 ⟨?_, hC⟩
      intro hmem
      have := hClen _ hmem; simp at this
    · exact hBC
    · exact hC

/-- Witness for c2_uniqueness_amended: two concrete two-segment articles
with dot-free segments; the expected page list of the run is
duplicate-free. -/
theorem c2_witness :
    (expectedIndexFiles defaultArgs
      (sectionsOf defaultArgs
        ⟨[⟨"a/b".toList, "T1".toList, []⟩, ⟨"a/c".toList, "T2".toList, []⟩]⟩)
      (sortedOf defaultArgs
        ⟨[⟨"a/b".toList, "T1".toList, []⟩, ⟨"a/c".toList, "T2".toList, []⟩]⟩)).Nodup :=
  (c2_uniqueness_amended defaultArgs
    ⟨[⟨"a/b".toList, "T1".toList, []⟩, ⟨"a/c".toList, "T2".toList, []⟩]⟩ emptyFS
    (by decide) (by decide) (by decide)).2.1

theorem dedupe_paths_nodup (arts : List Article) :
    ((dedupeArticles arts).1.map (fun a => a.path)).Nodup := by
  have h : ∀ (l : List Article) (seen : List Str) (uniq : List Article) (warns : List Str),
      uniq.map (fun a => a.path) = seen → seen.Nodup →
      ((l.foldl
        (fun (acc : List Str × List Article × List Str) a =>
          let np := normalizeArticlePath a.path
          if acc.1.contains np then (acc.1, acc.2.1, acc.2.2 ++ [np])
          else (acc.1 ++ [np],
                acc.2.1 ++ [{ a with path := np, title := cleanText a.title }], acc.2.2))
        (seen, uniq, warns)).2.1.map (fun a => a.path)) =
        (l.foldl
          (fun (acc : List Str × List Article × List Str) a =>
            let np := normalizeArticlePath a.path
            if acc.1.contains np then (acc.1, acc.2.1, acc.2.2 ++ [np])
            else (acc.1 ++ [np],
                  acc.2.1 ++ [{ a with path := np, title := cleanText a.title }], acc.2.2))
          (seen, uniq, warns)).1 ∧
      (l.foldl
        (fun (acc : List Str × List Article × List Str) a =>
          let np := normalizeArticlePath a.path
          if acc.1.contains np then (acc.1, acc.2.1, acc.2.2 ++ [np])
          else (acc.1 ++ [np],
                acc.2.1 ++ [{ a with path := np, title := cleanText a.title }], acc.2.2))
        (seen, uniq, warns)).1.Nodup := by
    intro l
    induction l with
    | nil => intro seen uniq warns h1 h2; exact ⟨h1, h2⟩
    | cons a l ih =>
      intro seen uniq warns h1 h2
      simp only [List.foldl_cons]
      by_cases hc : seen.contains (normalizeArticlePath a.path)
      · simpa only [hc, if_true] using ih seen uniq _ h1 h2
      · simp only [hc, if_false]
        refine ih _ _ _ ?_ ?_
        · simp [h1]
        · refine List.Nodup.append h2 (List.nodup_singleton _) ?_
          intro x hx hx1
          simp only [List.mem_singleton] at hx1
          subst hx1
          exact hc (by simpa [List.elem_iff] using hx)
  have h2 := h arts [] [] [] rfl List.nodup_nil
  unfold dedupeArticles
  rw [h2.1]
  exact h2.2

theorem sortedOf_paths_nodup (args : Args) (data : InputData) :
    ((sortedOf args data).map (fun a => a.path)).Nodup := by
  have hded := dedupe_paths_nodup data.articles
  have hsel : ((selectedOf args data).map (fun a => a.path)).Nodup := by
    unfold selectedOf
    cases hreq : requestedOf args with
    | none => simpa only [hreq] using hded
    | some rs =>
      simp only [hreq]
      exact List.Nodup.sublist
        (List.Sublist.map (fun a : Article => a.path) (List.filter_sublist _)) hded
  unfold sortedOf sortByPath
  exact ((stableSort_perm _ _).map (fun a : Article => a.path)).nodup_iff.2 hsel

theorem findIdx_path_self {l : List Article} (hn : (l.map (fun a => a.path)).Nodup)
    (i : Nat) (h : i < l.length) :
    l.findIdx? (fun x => x.path == (l.get ⟨i, h⟩).path) = some i := by
  rw [List.findIdx?_eq_some_iff_getElem]
  refine ⟨h, by simp, ?_⟩
  intro j hji
  have hj : j < l.length := Nat.lt_trans hji h
  simp only [Bool.not_eq_true, beq_eq_false_iff_ne, ne_eq, List.get_eq_getElem]
  intro hpath
  have hinj := List.nodup_iff_injective_getElem.1 hn
  have hjm : j < (l.map (fun a => a.path)).length := by simpa using hj
  have him : i < (l.map (fun a => a.path)).length := by simpa using h
  have : (⟨j, hjm⟩ : Fin (l.map (fun a => a.path)).length) = ⟨i, him⟩ := by
    apply hinj
    simpa using hpath
  have : j = i := congrArg Fin.val this
  omega

/-- Claim C3, corrected form: the pagination of every rendered article
page is computed from the article's position within the run's full
path-sorted article list (the list run() passes to the renderer), not the
group's title-sorted sibling list: previous is the preceding entry of that
list, next is the following entry, and at either end the missing link is
absent (rendered as a disabled item). -/
theorem c3_pagination_amended (args : Args) (data : InputData) (i : Nat)
    (h : i < (sortedOf args data).length) :
    (∀ (fs0 : FS) (r : RunSummary),
      (runModel args data fs0).2 = .ok r → r.sorted = sortedOf args data) ∧
    prevOf ((sortedOf args data).get ⟨i, h⟩) (sortedOf args data) =
      (if i = 0 then none else (sortedOf args data)[i - 1]?) ∧
    nextOf ((sortedOf args data).get ⟨i, h⟩) (sortedOf args data) =
      (sortedOf args data)[i + 1]? := by
  refine ⟨?_, ?_, ?_⟩
  · intro fs0 r hok
    exact congrArg RunSummary.sorted (runModel_ok_elim args data fs0 r hok).2
  · unfold prevOf
    rw [findIdx_path_self (sortedOf_paths_nodup args data) i h]
    by_cases hi : i = 0
    · simp [hi]
    · have : 0 < i := Nat.pos_of_ne_zero hi
      simp [this, hi]
  · unfold nextOf
    rw [findIdx_path_self (sortedOf_paths_nodup args data) i h]

/-- Witness for c3_pagination_amended: two concrete articles in one group;
at index one of the path-sorted list the previous link is the entry at
index zero and there is no next link. -/
theorem c3_witness :
    (∀ (fs0 : FS) (r : RunSummary),
      (runModel defaultArgs
        ⟨[⟨"a/b".toList, "Zeta".toList, []⟩, ⟨"a/c".toList, "Alpha".toList, []⟩]⟩ fs0).2 =
          .ok r →
        r.sorted = sortedOf defaultArgs
          ⟨[⟨"a/b".toList, "Zeta".toList, []⟩, ⟨"a/c".toList, "Alpha".toList, []⟩]⟩) ∧
    prevOf ((sortedOf defaultArgs
        ⟨[⟨"a/b".toList, "Zeta".toList, []⟩, ⟨"a/c".toList, "Alpha".toList, []⟩]⟩).get
          ⟨1, by decide⟩)
      (sortedOf defaultArgs
        ⟨[⟨"a/b".toList, "Zeta".toList, []⟩, ⟨"a/c".toList, "Alpha".toList, []⟩]⟩) =
      (if 1 = 0 then none else (sortedOf defaultArgs
        ⟨[⟨"a/b".toList, "Zeta".toList, []⟩, ⟨"a/c".toList, "Alpha".toList, []⟩]⟩)[1 - 1]?) ∧
    nextOf ((sortedOf defaultArgs
        ⟨[⟨"a/b".toList, "Zeta".toList, []⟩, ⟨"a/c".toList, "Alpha".toList, []⟩]⟩).get
          ⟨1, by decide⟩)
      (sortedOf defaultArgs
        ⟨[⟨"a/b".toList, "Zeta".toList, []⟩, ⟨"a/c".toList, "Alpha".toList, []⟩]⟩) =
      (sortedOf defaultArgs
        ⟨[⟨"a/b".toList, "Zeta".toList, []⟩, ⟨"a/c".toList, "Alpha".toList, []⟩]⟩)[1 + 1]? :=
  c3_pagination_amended defaultArgs
    ⟨[⟨"a/b".toList, "Zeta".toList, []⟩, ⟨"a/c".toList, "Alpha".toList, []⟩]⟩ 1 (by decide)

/-- Claim C3 counterexample: with two articles in one group whose title
order is the reverse of their path order, the pagination the run computes
(from the path-sorted full list) disagrees with the spec's sibling-list
pagination at both articles, for both the previous and the next link. -/
theorem c3_counterexample :
    ((runModel defaultArgs
      ⟨[⟨"a/b".toList, "Zeta".toList, []⟩, ⟨"a/c".toList, "Alpha".toList, []⟩]⟩ emptyFS).2.map
      (fun r => r.sorted.map (fun a =>
        (prevOf a r.sorted == specPrev a r.sections,
         nextOf a r.sorted == specNext a r.sections)))) =
      .ok [(false, false), (false, false)] := by
  decide

theorem dedupe_eq_spec_aux :
    ∀ (l : List Article) (seen : List Str) (uniq : List Article) (warns : List Str),
      (l.foldl
        (fun (acc : List Str × List Article × List Str) a =>
          let np := normalizeArticlePath a.path
          if acc.1.contains np then (acc.1, acc.2.1, acc.2.2 ++ [np])
          else (acc.1 ++ [np],
                acc.2.1 ++ [{ a with path := np, title := cleanText a.title }], acc.2.2))
        (seen, uniq, warns)).2.1 = uniq ++ (dedupeSpec seen l).1 ∧
      (l.foldl
        (fun (acc : List Str × List Article × List Str) a =>
          let np := normalizeArticlePath a.path
          if acc.1.contains np then (acc.1, acc.2.1, acc.2.2 ++ [np])
          else (acc.1 ++ [np],
                acc.2.1 ++ [{ a with path := np, title := cleanText a.title }], acc.2.2))
        (seen, uniq, warns)).2.2 = warns ++ (dedupeSpec seen l).2 := by
  intro l
  induction l with
  | nil => intro seen uniq warns; simp [dedupeSpec]
  | cons a l ih =>
    intro seen uniq warns
    simp only [List.foldl_cons, dedupeSpec]
    by_cases hc : seen.contains (normalizeArticlePath a.path) = true
    · rw [if_pos hc, if_pos hc]
      obtain ⟨h1, h2⟩ := ih seen uniq (warns ++ [normalizeArticlePath a.path])
      refine ⟨h1, ?_⟩
      rw [h2, List.append_assoc]
      rfl
    · rw [if_neg hc, if_neg hc]
      obtain ⟨h1, h2⟩ := ih (seen ++ [normalizeArticlePath a.path])
        (uniq ++ [{ a with path := normalizeArticlePath a.path, title := cleanText a.title }])
        warns
      refine ⟨?_, h2⟩
      rw [h1, List.append_assoc]
      rfl

theorem dedupe_eq_spec (arts : List Article) : dedupeArticles arts = dedupeSpec [] arts := by
  unfold dedupeArticles
  obtain ⟨h1, h2⟩ := dedupe_eq_spec_aux arts [] [] []
  simp only []
  rw [h1, h2]
  simp

theorem dedupeSpec_count_mem (p : Str) :
    ∀ (l : List Article) (seen : List Str), p ∈ seen →
      (((dedupeSpec seen l).1.map (fun a => a.path)).count p = 0 ∧
       (dedupeSpec seen l).2.count p =
         ((l.map (fun a => normalizeArticlePath a.path)).count p)) := by
  intro l
  induction l with
  | nil => intro seen hp; simp [dedupeSpec]
  | cons a l ih =>
    intro seen hp
    simp only [dedupeSpec, List.map_cons]
    by_cases hc : seen.contains (normalizeArticlePath a.path)
    · obtain ⟨h1, h2⟩ := ih seen hp
      simp only [hc, if_true]
      refine ⟨h1, ?_⟩
      simp only [List.count_cons, h2]
    · obtain ⟨h1, h2⟩ := ih (seen ++ [normalizeArticlePath a.path])
        (List.mem_append.2 (Or.inl hp))
      have hne : normalizeArticlePath a.path ≠ p := by
        intro he
        exact hc (by simpa [List.elem_iff, he] using hp)
      simp only [hc, if_false, List.map_cons, List.count_cons]
      constructor
      · simp [List.count_cons, hne, h1]
      · simp [List.count_cons, hne, h2]

theorem dedupeSpec_count_not_mem (p : Str) :
    ∀ (l : List Article) (seen : List Str), p ∉ seen →
      (((dedupeSpec seen l).1.map (fun a => a.path)).count p =
        min 1 ((l.map (fun a => normalizeArticlePath a.path)).count p) ∧
       (dedupeSpec seen l).2.count p =
        ((l.map (fun a => normalizeArticlePath a.path)).count p) -
          min 1 ((l.map (fun a => normalizeArticlePath a.path)).count p)) := by
  intro l
  induction l with
  | nil => intro seen hp; simp [dedupeSpec]
  | cons a l ih =>
    intro seen hp
    by_cases hpa : normalizeArticlePath a.path = p
    · have hc : seen.contains (normalizeArticlePath a.path) = false := by
        rw [hpa]
        exact Bool.eq_false_iff.2 (fun h => hp (List.elem_iff.1 h))
      have hmem : p ∈ seen ++ [normalizeArticlePath a.path] := by
        rw [hpa]
        exact List.mem_append.2 (Or.inr (List.mem_singleton.2 rfl))
      obtain ⟨h1, h2⟩ := dedupeSpec_count_mem p l _ hmem
      rw [hpa] at h1 h2
      constructor
      · simp [dedupeSpec, hc, hpa, hp, List.count_cons, h1]
      · simp [dedupeSpec, hc, hpa, hp, List.count_cons, h2]
    · by_cases hc : seen.contains (normalizeArticlePath a.path) = true
      · have hm : normalizeArticlePath a.path ∈ seen := by simpa using hc
        obtain ⟨h1, h2⟩ := ih seen hp
        constructor
        · simp [dedupeSpec, hm, List.count_cons, hpa, h1]
        · simp [dedupeSpec, hm, List.count_cons, hpa, h2]
      · have hp2 : p ∉ seen ++ [normalizeArticlePath a.path] := by
          intro hmem
          rcases List.mem_append.1 hmem with h | h
          · exact hp h
          · exact hpa (List.mem_singleton.1 h).symm
        obtain ⟨h1, h2⟩ := ih (seen ++ [normalizeArticlePath a.path]) hp2
        have hm2 : normalizeArticlePath a.path ∉ seen := by
          simpa using hc
        constructor
        · simp [dedupeSpec, hm2, List.count_cons, hpa, h1]
        · simp [dedupeSpec, hm2, List.count_cons, hpa, h2]

theorem dedupeSpec_find (p : Str) :
    ∀ (l : List Article) (seen : List Str), p ∉ seen →
      (dedupeSpec seen l).1.find? (fun a => a.path == p) =
        (l.find? (fun a => normalizeArticlePath a.path == p)).map
          (fun a => { a with path := normalizeArticlePath a.path,
                             title := cleanText a.title }) := by
  intro l
  induction l with
  | nil => intro seen hp; simp [dedupeSpec]
  | cons a l ih =>
    intro seen hp
    by_cases hpa : normalizeArticlePath a.path = p
    · have hc : seen.contains (normalizeArticlePath a.path) = false := by
        rw [hpa]
        exact Bool.eq_false_iff.2 (fun h => hp (List.elem_iff.1 h))
      have hm0 : normalizeArticlePath a.path ∉ seen := by simpa using hc
      have hred : dedupeSpec seen (a :: l) =
          ({ a with path := normalizeArticlePath a.path, title := cleanText a.title } ::
            (dedupeSpec (seen ++ [normalizeArticlePath a.path]) l).1,
           (dedupeSpec (seen ++ [normalizeArticlePath a.path]) l).2) := by
        simp [dedupeSpec, hm0]
      rw [hred]
      rw [List.find?_cons_of_pos _ (by simp [hpa]), List.find?_cons_of_pos _ (by simp [hpa])]
      simp
    · by_cases hc : seen.contains (normalizeArticlePath a.path) = true
      · have hm : normalizeArticlePath a.path ∈ seen := by simpa using hc
        have hred : dedupeSpec seen (a :: l) =
            ((dedupeSpec seen l).1,
             normalizeArticlePath a.path :: (dedupeSpec seen l).2) := by
          simp [dedupeSpec, hm]
        rw [hred]
        rw [List.find?_cons_of_neg _ (by simp [hpa])]
        exact ih seen hp
      · have hp2 : p ∉ seen ++ [normalizeArticlePath a.path] := by
          intro hmem
          rcases List.mem_append.1 hmem with h | h
          · exact hp h
          · exact hpa (List.mem_singleton.1 h).symm
        have hc2 : seen.contains (normalizeArticlePath a.path) = false := by
          simpa using hc
        have hm2 : normalizeArticlePath a.path ∉ seen := by simpa using hc
        have hred : dedupeSpec seen (a :: l) =
            ({ a with path := normalizeArticlePath a.path, title := cleanText a.title } ::
              (dedupeSpec (seen ++ [normalizeArticlePath a.path]) l).1,
             (dedupeSpec (seen ++ [normalizeArticlePath a.path]) l).2) := by
          simp [dedupeSpec, hm2]
        rw [hred]
        rw [List.find?_cons_of_neg _ (by simp [hpa]), List.find?_cons_of_neg _ (by simp [hpa])]
        exact ih _ hp2

theorem count_map_path (l : List Article) (p : Str) :
    (l.map (fun a => a.path)).count p = (l.filter (fun a => a.path == p)).length := by
  induction l with
  | nil => rfl
  | cons a l ih =>
    simp only [List.map_cons, List.count_cons, List.filter_cons]
    by_cases hpa : a.path = p
    · simp [hpa, ih]
    · simp [hpa, ih]

theorem runModel_isOk_of_no_include (args : Args) (data : InputData) (fs0 : FS)
    (h : args.includePaths = none) : (runModel args data fs0).2.isOk = true := by
  have hm : missingOf args data = [] := by
    unfold missingOf requestedOf
    rw [h]
    rfl
  unfold runModel
  rw [hm]
  rfl

/-- Claim C6: when two or more input articles share a normalized path,
the first occurrence is kept (with normalized path and cleaned title),
exactly one kept article carries that path, every later occurrence is
recorded as a duplicate warning, the run does not fail (with no include
filter), and exactly one article page is emitted for that path. -/
theorem c6_duplicate_handling (arts : List Article) (p : Str)
    (hdup : 2 ≤ ((arts.map (fun a => normalizeArticlePath a.path)).count p)) :
    ((dedupeArticles arts).1.map (fun a => a.path)).count p = 1 ∧
    (dedupeArticles arts).1.find? (fun a => a.path == p) =
      (arts.find? (fun a => normalizeArticlePath a.path == p)).map
        (fun a => { a with path := normalizeArticlePath a.path,
                           title := cleanText a.title }) ∧
    (dedupeArticles arts).2.count p =
      ((arts.map (fun a => normalizeArticlePath a.path)).count p) - 1 ∧
    (∀ (args : Args) (fs0 : FS), args.includePaths = none →
      (runModel args ⟨arts⟩ fs0).2.isOk = true ∧
      ((sortedOf args ⟨arts⟩).filter (fun a => a.path == p)).length = 1) := by
  have hspec := dedupe_eq_spec arts
  obtain ⟨h1, h2⟩ := dedupeSpec_count_not_mem p arts [] (by simp)
  have hmin : min 1 ((arts.map (fun a => normalizeArticlePath a.path)).count p) = 1 := by
    omega
  have hcount1 : ((dedupeArticles arts).1.map (fun a => a.path)).count p = 1 := by
    rw [hspec, h1, hmin]
  refine ⟨hcount1, ?_, ?_, ?_⟩
  · rw [hspec]
    exact dedupeSpec_find p arts [] (by simp)
  · rw [hspec, h2, hmin]
  · intro args fs0 hinc
    refine ⟨runModel_isOk_of_no_include args ⟨arts⟩ fs0 hinc, ?_⟩
    have hsel : selectedOf args ⟨arts⟩ = (dedupeArticles arts).1 := by
      unfold selectedOf requestedOf
      rw [hinc]
      rfl
    have hperm : ((sortedOf args ⟨arts⟩).map (fun a => a.path)).Perm
        (((dedupeArticles arts).1).map (fun a => a.path)) := by
      unfold sortedOf sortByPath
      rw [hsel]
      exact (stableSort_perm _ _).map (fun a : Article => a.path)
    have hthis := hperm.countP_eq (fun x => x == p)
    rw [List.countP_map, List.countP_map] at hthis
    have h3 : ((dedupeArticles arts).1.countP (fun a => a.path == p)) = 1 := by
      have h4 := hcount1
      rw [show List.count p (List.map (fun a => a.path) (dedupeArticles arts).1) =
          (List.map (fun a => a.path) (dedupeArticles arts).1).countP (fun x => x == p)
        from rfl] at h4
      rw [List.countP_map] at h4
      exact h4
    rw [← List.countP_eq_length_filter]
    exact hthis.trans h3

/-- Witness for c6_duplicate_handling: the two-article input a/b and a/b/
(same path after normalization); the second is dropped with a warning and
one page is emitted for a/b. -/
theorem c6_witness :
    ((dedupeArticles [⟨"a/b".toList, "T1".toList, []⟩, ⟨"a/b/".toList, "T2".toList, []⟩]).1.map
      (fun a => a.path)).count ("a/b".toList) = 1 ∧
    (dedupeArticles [⟨"a/b".toList, "T1".toList, []⟩,
        ⟨"a/b/".toList, "T2".toList, []⟩]).1.find? (fun a => a.path == "a/b".toList) =
      (([⟨"a/b".toList, "T1".toList, []⟩, ⟨"a/b/".toList, "T2".toList, []⟩] :
          List Article).find? (fun a => normalizeArticlePath a.path == "a/b".toList)).map
        (fun a => { a with path := normalizeArticlePath a.path,
                           title := cleanText a.title }) ∧
    (dedupeArticles [⟨"a/b".toList, "T1".toList, []⟩,
        ⟨"a/b/".toList, "T2".toList, []⟩]).2.count ("a/b".toList) =
      ((([⟨"a/b".toList, "T1".toList, []⟩, ⟨"a/b/".toList, "T2".toList, []⟩] :
          List Article).map (fun a => normalizeArticlePath a.path)).count ("a/b".toList)) - 1 ∧
    (runModel defaultArgs ⟨[⟨"a/b".toList, "T1".toList, []⟩,
        ⟨"a/b/".toList, "T2".toList, []⟩]⟩ emptyFS).2.isOk = true ∧
    ((sortedOf defaultArgs ⟨[⟨"a/b".toList, "T1".toList, []⟩,
        ⟨"a/b/".toList, "T2".toList, []⟩]⟩).filter
      (fun a => a.path == "a/b".toList)).length = 1 := by
  have h := c6_duplicate_handling
    [⟨"a/b".toList, "T1".toList, []⟩, ⟨"a/b/".toList, "T2".toList, []⟩]
    ("a/b".toList) (by decide)
  exact ⟨h.1, h.2.1, h.2.2.1, h.2.2.2 defaultArgs emptyFS rfl⟩

theorem ensureDir_files (fs : FS) (d : FPath) (dr : Bool) :
    (ensureDirFS fs d dr).files = fs.files := by
  unfold ensureDirFS
  split <;> rfl

theorem writeFile_files_mem (fs : FS) (p q : FPath) :
    q ∈ (writeFileFS fs p false).files ↔ q ∈ fs.files ∨ q = p := by
  unfold writeFileFS
  simp only [Bool.false_eq_true, if_false]
  by_cases hc : fs.files.contains p = true
  · rw [if_pos hc]
    have hp : p ∈ fs.files := by simpa [List.elem_iff] using hc
    constructor
    · exact fun h => Or.inl h
    · rintro (h | rfl)
      · exact h
      · exact hp
  · rw [if_neg hc]
    simp [List.mem_append]

theorem articleFold_files_mem :
    ∀ (l : List Article) (st : FS × List FPath) (q : FPath),
      q ∈ ((l.foldl
        (fun (st : FS × List FPath) a =>
          (writeFileFS (ensureDirFS st.1 (segsOf a.path) false)
            (segsOf a.path ++ [idxSeg]) false,
           st.2 ++ [segsOf a.path ++ [idxSeg]]))
        st).1).files ↔
      q ∈ st.1.files ∨ q ∈ l.map (fun a => segsOf a.path ++ [idxSeg]) := by
  intro l
  induction l with
  | nil => intro st q; simp
  | cons a l ih =>
    intro st q
    simp only [List.foldl_cons, List.map_cons, List.mem_cons, ih,
      ensureDir_files, writeFile_files_mem]
    tauto

theorem landingFold_files_mem :
    ∀ (l : List SectionModel) (st : FS × List FPath) (q : FPath),
      q ∈ ((l.foldl
        (fun (st : FS × List FPath) s =>
          (writeFileFS (ensureDirFS st.1 [s.path] false) [s.path, idxSeg] false,
           st.2 ++ [[s.path, idxSeg]]))
        st).1).files ↔
      q ∈ st.1.files ∨ q ∈ l.map (fun s => [s.path, idxSeg]) := by
  intro l
  induction l with
  | nil => intro st q; simp
  | cons s l ih =>
    intro st q
    simp only [List.foldl_cons, List.map_cons, List.mem_cons, ih,
      ensureDir_files, writeFile_files_mem]
    tauto

theorem writePhase_files_mem (args : Args) (hd : args.dryRun = false)
    (sections : List SectionModel) (sorted : List Article) (fs0 : FS) (q : FPath) :
    q ∈ ((writePhase args sections sorted fs0).1).files ↔
      q ∈ fs0.files ∨ q ∈ expectedIndexFiles args sections sorted := by
  unfold writePhase expectedIndexFiles
  rw [hd]
  rw [articleFold_files_mem]
  by_cases hh : args.generateHome <;> by_cases hl : args.generateLandings <;>
    simp only [hh, hl, Bool.false_eq_true, if_true, if_false] <;>
    simp only [landingFold_files_mem, ensureDir_files, writeFile_files_mem,
      List.mem_append, List.mem_singleton, List.nil_append] <;>
    tauto

theorem walkUpF_files (dr : Bool) :
    ∀ (fuel : Nat) (fs : FS) (c : FPath), ((walkUpF dr fuel fs c).1).files = fs.files := by
  intro fuel
  induction fuel with
  | zero => intro fs c; rfl
  | succ fuel ih =>
    intro fs c
    rw [walkUpF]
    split
    · rfl
    · split
      · rfl
      · split
        · rfl
        · simp only []
          split <;> rw [ih]

theorem walkUp_files (dr : Bool) (fs : FS) (c : FPath) :
    ((walkUp dr fs c).1).files = fs.files := walkUpF_files dr c.length fs c

theorem removeFile_files_mem (fs : FS) (f q : FPath) :
    q ∈ (removeFileFS fs f false).files ↔ q ∈ fs.files ∧ q ≠ f := by
  unfold removeFileFS
  simp [List.mem_filter]

theorem pruneFold_files_mem :
    ∀ (l : List FPath) (st : FS × List FPath) (q : FPath),
      q ∈ ((l.foldl
        (fun (st : FS × List FPath) f =>
          let fsA := removeFileFS st.1 f false
          let step := walkUp false fsA f.dropLast
          (step.1, st.2 ++ step.2))
        st).1).files ↔ (q ∈ st.1.files ∧ q ∉ l) := by
  intro l
  induction l with
  | nil => intro st q; simp
  | cons f l ih =>
    intro st q
    simp only [List.foldl_cons]
    rw [ih]
    simp only [walkUp_files, removeFile_files_mem, List.mem_cons]
    tauto

theorem prunePhase_files_mem (stale : List FPath) (fs : FS) (q : FPath) :
    q ∈ ((prunePhase false stale fs).1).files ↔ (q ∈ fs.files ∧ q ∉ stale) := by
  unfold prunePhase
  exact pruneFold_files_mem stale (fs, []) q

theorem runModel_fs_eq (args : Args) (data : InputData) (fs0 : FS)
    (hm : missingOf args data = []) :
    (runModel args data fs0).1 =
      writeFileFS
        (ensureDirFS
          (prunePhase args.dryRun
            (staleValues
              (expectedIndexFiles args (sectionsOf args data) (sortedOf args data))
              (writePhase args (sectionsOf args data) (sortedOf args data) fs0).1)
            (writePhase args (sectionsOf args data) (sortedOf args data) fs0).1).1
          [] args.dryRun)
        [searchSeg] args.dryRun := by
  unfold runModel
  rw [hm]
  rfl

theorem staleValues_mem (e : List FPath) (fs : FS) (q : FPath) :
    q ∈ staleValues e fs ↔
      (q ∈ fs.files ∧ q.getLast? = some idxSeg ∧ q ∉ e) := by
  unfold staleValues
  simp [List.mem_filter, and_assoc]

theorem mem_sortedOf_iff (args : Args) (data : InputData) (a : Article) :
    a ∈ sortedOf args data ↔ a ∈ selectedOf args data := by
  unfold sortedOf sortByPath
  exact (stableSort_perm _ _).mem_iff

/-- Claim C5: with an include-path list whose normalized paths are all
present, the run writes exactly the pages of the selected articles (plus
home and the landings of their groups when those flags are enabled) and
the search index, and nothing else; with any requested path absent after
normalization, the run fails with an error naming the missing paths and
the filesystem is untouched (no output is written). -/
theorem c5_include_filter (args : Args) (data : InputData) (ps : List Str)
    (hinc : args.includePaths = some ps) (hd : args.dryRun = false) :
    (missingOf args data = [] →
      (∀ a ∈ sortedOf args data, a.path ∈ ps.map normalizeArticlePath) ∧
      (∀ p ∈ ps.map normalizeArticlePath, ∃ a ∈ sortedOf args data, a.path = p) ∧
      (∀ q : FPath, q ∈ (runModel args data emptyFS).1.files ↔
        (q ∈ expectedIndexFiles args (sectionsOf args data) (sortedOf args data) ∨
          q = [searchSeg]))) ∧
    (missingOf args data ≠ [] →
      ∀ fs0 : FS, runModel args data fs0 =
        (fs0, .error (.unknownIncludePaths (missingOf args data)))) := by
  have hreq : requestedOf args = some (ps.map normalizeArticlePath) := by
    unfold requestedOf
    rw [hinc]
    rfl
  constructor
  · intro hm
    refine ⟨?_, ?_, ?_⟩
    · intro a ha
      have ha2 : a ∈ selectedOf args data := (mem_sortedOf_iff args data a).1 ha
      unfold selectedOf at ha2
      rw [hreq] at ha2
      have := (List.mem_filter.1 ha2).2
      simpa [List.elem_iff] using this
    · intro p hp
      unfold missingOf at hm
      rw [hreq] at hm
      have hall := List.filter_eq_nil_iff.1 hm p hp
      simp only [Bool.not_eq_true', Bool.not_eq_false] at hall
      have hmem : p ∈ (selectedOf args data).map (fun a => a.path) := by
        simpa [List.elem_iff] using hall
      obtain ⟨a, ha, rfl⟩ := List.mem_map.1 hmem
      exact ⟨a, (mem_sortedOf_iff args data a).2 ha, rfl⟩
    · intro q
      rw [runModel_fs_eq args data emptyFS hm, hd]
      rw [writeFile_files_mem, ensureDir_files, prunePhase_files_mem]
      rw [writePhase_files_mem args hd]
      constructor
      · rintro (⟨hin, hstale⟩ | rfl)
        · rcases hin with hin | hin
          · cases hin
          · exact Or.inl hin
        · exact Or.inr rfl
      · rintro (hin | rfl)
        · refine Or.inl ⟨Or.inr hin, ?_⟩
          intro hst
          have := (staleValues_mem _ _ _).1 hst
          exact this.2.2 hin
        · exact Or.inr rfl
  · intro hne fs0
    have h1 : (missingOf args data).isEmpty = false := by
      cases hM : missingOf args data with
      | nil => exact absurd hM hne
      | cons a l => rfl
    unfold runModel
    simp [h1]

/-- Witness for c5_include_filter, applied twice at a concrete
three-article input: with the include list a/b,a/c (both present) the
article page of a/b is among the produced files, and with the include list
a/b,zz (zz unknown) the run returns the unknown-include-paths error with
the filesystem unchanged. -/
theorem c5_witness :
    (["a".toList, "b".toList, idxSeg] : FPath) ∈
      (runModel { defaultArgs with includePaths := some ["a/b".toList, "a/c".toList] }
        ⟨[⟨"a/b".toList, "B".toList, []⟩, ⟨"a/c".toList, "C".toList, []⟩,
          ⟨"d/e".toList, "E".toList, []⟩]⟩ emptyFS).1.files ∧
    runModel { defaultArgs with includePaths := some ["a/b".toList, "zz".toList] }
      ⟨[⟨"a/b".toList, "B".toList, []⟩, ⟨"a/c".toList, "C".toList, []⟩,
        ⟨"d/e".toList, "E".toList, []⟩]⟩ emptyFS =
      (emptyFS, .error (.unknownIncludePaths
        (missingOf { defaultArgs with includePaths := some ["a/b".toList, "zz".toList] }
          ⟨[⟨"a/b".toList, "B".toList, []⟩, ⟨"a/c".toList, "C".toList, []⟩,
            ⟨"d/e".toList, "E".toList, []⟩]⟩))) := by
  constructor
  · have h := (c5_include_filter
      { defaultArgs with includePaths := some ["a/b".toList, "a/c".toList] }
      ⟨[⟨"a/b".toList, "B".toList, []⟩, ⟨"a/c".toList, "C".toList, []⟩,
        ⟨"d/e".toList, "E".toList, []⟩]⟩ ["a/b".toList, "a/c".toList] rfl rfl).1 (by decide)
    exact (h.2.2 ["a".toList, "b".toList, idxSeg]).2 (Or.inl (by decide))
  · exact (c5_include_filter
      { defaultArgs with includePaths := some ["a/b".toList, "zz".toList] }
      ⟨[⟨"a/b".toList, "B".toList, []⟩, ⟨"a/c".toList, "C".toList, []⟩,
        ⟨"d/e".toList, "E".toList, []⟩]⟩ ["a/b".toList, "zz".toList] rfl rfl).2
      (by decide) emptyFS

theorem ensureDir_dry (fs : FS) (d : FPath) : ensureDirFS fs d true = fs := rfl

theorem writeFile_dry (fs : FS) (p : FPath) : writeFileFS fs p true = fs := rfl

theorem removeFile_dry (fs : FS) (p : FPath) : removeFileFS fs p true = fs := rfl

theorem walkUpF_dry_fs :
    ∀ (fuel : Nat) (fs : FS) (c : FPath), (walkUpF true fuel fs c).1 = fs := by
  intro fuel
  induction fuel with
  | zero => intro fs c; rfl
  | succ fuel ih =>
    intro fs c
    rw [walkUpF]
    split
    · rfl
    · split
      · rfl
      · split
        · rfl
        · simp only [if_true]
          rw [ih]

theorem articleFold_dry :
    ∀ (l : List Article) (st : FS × List FPath),
      ((l.foldl
        (fun (st : FS × List FPath) a =>
          (writeFileFS (ensureDirFS st.1 (segsOf a.path) true)
            (segsOf a.path ++ [idxSeg]) true,
           st.2 ++ [segsOf a.path ++ [idxSeg]]))
        st).1) = st.1 := by
  intro l
  induction l with
  | nil => intro st; rfl
  | cons a l ih =>
    intro st
    simp only [List.foldl_cons]
    rw [ih]
    rfl

theorem landingFold_dry :
    ∀ (l : List SectionModel) (st : FS × List FPath),
      ((l.foldl
        (fun (st : FS × List FPath) s =>
          (writeFileFS (ensureDirFS st.1 [s.path] true) [s.path, idxSeg] true,
           st.2 ++ [[s.path, idxSeg]]))
        st).1) = st.1 := by
  intro l
  induction l with
  | nil => intro st; rfl
  | cons s l ih =>
    intro st
    simp only [List.foldl_cons]
    rw [ih]
    rfl

theorem writePhase_dry (args : Args) (hd : args.dryRun = true)
    (sections : List SectionModel) (sorted : List Article) (fs0 : FS) :
    (writePhase args sections sorted fs0).1 = fs0 := by
  unfold writePhase
  rw [hd]
  rw [articleFold_dry]
  by_cases hl : args.generateLandings <;> by_cases hh : args.generateHome <;>
    simp only [hl, hh, Bool.false_eq_true, if_true, if_false] <;>
    first
      | rfl
      | (rw [landingFold_dry]; rfl)
      | (rw [landingFold_dry])

theorem pruneFold_dry :
    ∀ (l : List FPath) (st : FS × List FPath),
      ((l.foldl
        (fun (st : FS × List FPath) f =>
          let fsA := removeFileFS st.1 f true
          let step := walkUp true fsA f.dropLast
          (step.1, st.2 ++ step.2))
        st).1) = st.1 := by
  intro l
  induction l with
  | nil => intro st; rfl
  | cons f l ih =>
    intro st
    simp only [List.foldl_cons]
    rw [ih]
    simp only [removeFile_dry]
    exact walkUpF_dry_fs _ _ _

theorem prunePhase_dry (stale : List FPath) (fs : FS) :
    (prunePhase true stale fs).1 = fs := by
  unfold prunePhase
  exact pruneFold_dry stale (fs, [])

theorem writeFile_files_append (fs : FS) (p : FPath) :
    ∃ e : List FPath, (writeFileFS fs p false).files = fs.files ++ e ∧ ∀ x ∈ e, x = p := by
  unfold writeFileFS
  simp only [Bool.false_eq_true, if_false]
  by_cases hc : fs.files.contains p = true
  · have hp : p ∈ fs.files := by simpa [List.elem_iff] using hc
    exact ⟨[], by simp [hp], by simp⟩
  · refine ⟨[p], ?_, by simp⟩
    rw [if_neg hc]

theorem articleFold_files_append :
    ∀ (l : List Article) (st : FS × List FPath),
      ∃ e : List FPath,
        ((l.foldl
          (fun (st : FS × List FPath) a =>
            (writeFileFS (ensureDirFS st.1 (segsOf a.path) false)
              (segsOf a.path ++ [idxSeg]) false,
             st.2 ++ [segsOf a.path ++ [idxSeg]]))
          st).1).files = st.1.files ++ e ∧
        ∀ x ∈ e, x ∈ l.map (fun a => segsOf a.path ++ [idxSeg]) := by
  intro l
  induction l with
  | nil => intro st; exact ⟨[], by simp, by simp⟩
  | cons a l ih =>
    intro st
    simp only [List.foldl_cons]
    obtain ⟨e2, he2, hsub2⟩ := ih
      ((writeFileFS (ensureDirFS st.1 (segsOf a.path) false)
          (segsOf a.path ++ [idxSeg]) false,
        st.2 ++ [segsOf a.path ++ [idxSeg]]))
    obtain ⟨e1, he1, hsub1⟩ := writeFile_files_append (ensureDirFS st.1 (segsOf a.path) false)
      (segsOf a.path ++ [idxSeg])
    refine ⟨e1 ++ e2, ?_, ?_⟩
    · rw [he2]
      rw [he1, ensureDir_files, List.append_assoc]
    · intro x hx
      rcases List.mem_append.1 hx with hx | hx
      · simp [hsub1 x hx]
      · exact List.mem_cons_of_mem _ (hsub2 x hx)

theorem landingFold_files_append :
    ∀ (l : List SectionModel) (st : FS × List FPath),
      ∃ e : List FPath,
        ((l.foldl
          (fun (st : FS × List FPath) s =>
            (writeFileFS (ensureDirFS st.1 [s.path] false) [s.path, idxSeg] false,
             st.2 ++ [[s.path, idxSeg]]))
          st).1).files = st.1.files ++ e ∧
        ∀ x ∈ e, x ∈ l.map (fun s => [s.path, idxSeg]) := by
  intro l
  induction l with
  | nil => intro st; exact ⟨[], by simp, by simp⟩
  | cons s l ih =>
    intro st
    simp only [List.foldl_cons]
    obtain ⟨e2, he2, hsub2⟩ := ih
      ((writeFileFS (ensureDirFS st.1 [s.path] false) [s.path, idxSeg] false,
        st.2 ++ [[s.path, idxSeg]]))
    obtain ⟨e1, he1, hsub1⟩ := writeFile_files_append (ensureDirFS st.1 [s.path] false)
      [s.path, idxSeg]
    refine ⟨e1 ++ e2, ?_, ?_⟩
    · rw [he2]
      rw [he1, ensureDir_files, List.append_assoc]
    · intro x hx
      rcases List.mem_append.1 hx with hx | hx
      · simp [hsub1 x hx]
      · exact List.mem_cons_of_mem _ (hsub2 x hx)

theorem writePhase_files_append (args : Args) (hd : args.dryRun = false)
    (sections : List SectionModel) (sorted : List Article) (fs0 : FS) :
    ∃ e : List FPath,
      ((writePhase args sections sorted fs0).1).files = fs0.files ++ e ∧
      ∀ x ∈ e, x ∈ expectedIndexFiles args sections sorted := by
  unfold writePhase expectedIndexFiles
  rw [hd]
  by_cases hh : args.generateHome <;> by_cases hl : args.generateLandings <;>
    simp only [hh, hl, Bool.false_eq_true, if_true, if_false]
  · obtain ⟨eh, heh, hsubh⟩ := writeFile_files_append (ensureDirFS fs0 [] false) [idxSeg]
    obtain ⟨el, hel, hsubl⟩ := landingFold_files_append sections
      (writeFileFS (ensureDirFS fs0 [] false) [idxSeg] false, [[idxSeg]])
    obtain ⟨ea, hea, hsuba⟩ := articleFold_files_append sorted
      (sections.foldl
        (fun (st : FS × List FPath) s =>
          (writeFileFS (ensureDirFS st.1 [s.path] false) [s.path, idxSeg] false,
           st.2 ++ [[s.path, idxSeg]]))
        (writeFileFS (ensureDirFS fs0 [] false) [idxSeg] false, [[idxSeg]]))
    refine ⟨eh ++ (el ++ ea), ?_, ?_⟩
    · rw [hea, hel]
      rw [heh, ensureDir_files, List.append_assoc, List.append_assoc]
    · intro x hx
      rcases List.mem_append.1 hx with hx | hx
      · simp [hsubh x hx]
      · rcases List.mem_append.1 hx with hx | hx
        · simp only [List.cons_append, List.nil_append, List.mem_cons, List.mem_append]
          exact Or.inr (Or.inl (hsubl x hx))
        · simp only [List.cons_append, List.nil_append, List.mem_cons, List.mem_append]
          exact Or.inr (Or.inr (hsuba x hx))
  · obtain ⟨eh, heh, hsubh⟩ := writeFile_files_append (ensureDirFS fs0 [] false) [idxSeg]
    obtain ⟨ea, hea, hsuba⟩ := articleFold_files_append sorted
      (writeFileFS (ensureDirFS fs0 [] false) [idxSeg] false, [[idxSeg]])
    refine ⟨eh ++ ea, ?_, ?_⟩
    · rw [hea]
      rw [heh, ensureDir_files, List.append_assoc]
    · intro x hx
      rcases List.mem_append.1 hx with hx | hx
      · simp [hsubh x hx]
      · simp only [List.cons_append, List.mem_cons, List.nil_append]
        exact Or.inr (hsuba x hx)
  · obtain ⟨el, hel, hsubl⟩ := landingFold_files_append sections (fs0, [])
    obtain ⟨ea, hea, hsuba⟩ := articleFold_files_append sorted
      (sections.foldl
        (fun (st : FS × List FPath) s =>
          (writeFileFS (ensureDirFS st.1 [s.path] false) [s.path, idxSeg] false,
           st.2 ++ [[s.path, idxSeg]]))
        (fs0, []))
    refine ⟨el ++ ea, ?_, ?_⟩
    · rw [hea, hel, List.append_assoc]
    · intro x hx
      rcases List.mem_append.1 hx with hx | hx
      · simp [hsubl x hx]
      · simp [hsuba x hx]
  · obtain ⟨ea, hea, hsuba⟩ := articleFold_files_append sorted (fs0, [])
    refine ⟨ea, hea, ?_⟩
    intro x hx
    simp only [List.nil_append]
    exact hsuba x hx

theorem staleValues_files_congr (e : List FPath) (fs1 fs2 : FS)
    (h : fs1.files = fs2.files) : staleValues e fs1 = staleValues e fs2 := by
  unfold staleValues
  rw [h]

theorem runModel_snd_eq (args : Args) (data : InputData) (fs0 : FS)
    (hm : missingOf args data = []) :
    (runModel args data fs0).2 = .ok
      { pageWrites := expectedIndexFiles args (sectionsOf args data) (sortedOf args data),
        searchDocs := (sortedOf args data).map buildSearchIndexDoc,
        staleFiles := staleValues
          (expectedIndexFiles args (sectionsOf args data) (sortedOf args data))
          (writePhase args (sectionsOf args data) (sortedOf args data) fs0).1,
        dirsRemoved := (prunePhase args.dryRun
          (staleValues (expectedIndexFiles args (sectionsOf args data) (sortedOf args data))
            (writePhase args (sectionsOf args data) (sortedOf args data) fs0).1)
          (writePhase args (sectionsOf args data) (sortedOf args data) fs0).1).2,
        duplicateWarnings := (dedupeArticles data.articles).2,
        sorted := sortedOf args data,
        sections := sectionsOf args data } := by
  unfold runModel
  rw [hm]
  simp only [List.isEmpty_nil, Bool.not_true, Bool.false_eq_true, if_false]
  rw [writePhase_snd]

theorem staleValues_append_expected (e : List FPath) (files0 extra : List FPath)
    (dirs1 dirs2 : List FPath) (hx : ∀ x ∈ extra, x ∈ e) :
    staleValues e ⟨files0 ++ extra, dirs1⟩ = staleValues e ⟨files0, dirs2⟩ := by
  unfold staleValues
  simp only [List.filter_append]
  have hnil : extra.filter
      (fun p => p.getLast? == some idxSeg && !e.contains p) = [] := by
    rw [List.filter_eq_nil_iff]
    intro x hmem
    have hin := hx x hmem
    have hcon : e.contains x = true := by simpa [List.elem_iff] using hin
    rw [hcon]
    simp
  rw [hnil, List.append_nil]

/-- Claim C8, corrected form: a dry run leaves the filesystem untouched
(no directory created, no file written, no file or directory deleted)
while still performing the computations of a normal run: it succeeds or
fails exactly as the real run does and produces the same page-write list,
the same stale-file determination, the same search documents, models and
duplicate warnings.  The removed-directories determination is excluded:
a dry run walks the directories of a tree in which the stale files were
never actually unlinked, so it can report fewer removable directories
than the real run removes (see c8_counterexample). -/
theorem c8_dry_run_frame (args : Args) (data : InputData) (fs0 : FS)
    (hd : args.dryRun = true) :
    (runModel args data fs0).1 = fs0 ∧
    ((runModel args data fs0).2.map
      (fun r => (r.pageWrites, r.staleFiles, r.searchDocs, r.sorted, r.sections,
        r.duplicateWarnings)) =
     (runModel { args with dryRun := false } data fs0).2.map
      (fun r => (r.pageWrites, r.staleFiles, r.searchDocs, r.sorted, r.sections,
        r.duplicateWarnings))) := by
  by_cases hmiss : missingOf args data = []
  · constructor
    · rw [runModel_fs_eq args data fs0 hmiss, hd]
      rw [prunePhase_dry, writePhase_dry args hd]
      rfl
    · have hA := runModel_snd_eq args data fs0 hmiss
      have hB : (runModel { args with dryRun := false } data fs0).2 = .ok
          { pageWrites := expectedIndexFiles args (sectionsOf args data) (sortedOf args data),
            searchDocs := (sortedOf args data).map buildSearchIndexDoc,
            staleFiles := staleValues
              (expectedIndexFiles args (sectionsOf args data) (sortedOf args data))
              (writePhase { args with dryRun := false }
                (sectionsOf args data) (sortedOf args data) fs0).1,
            dirsRemoved := (prunePhase false
              (staleValues (expectedIndexFiles args (sectionsOf args data) (sortedOf args data))
                (writePhase { args with dryRun := false }
                  (sectionsOf args data) (sortedOf args data) fs0).1)
              (writePhase { args with dryRun := false }
                (sectionsOf args data) (sortedOf args data) fs0).1).2,
            duplicateWarnings := (dedupeArticles data.articles).2,
            sorted := sortedOf args data,
            sections := sectionsOf args data } :=
        runModel_snd_eq { args with dryRun := false } data fs0 hmiss
      rw [hA, hB]
      simp only [Except.map]
      have hstale :
          staleValues (expectedIndexFiles args (sectionsOf args data) (sortedOf args data))
            (writePhase args (sectionsOf args data) (sortedOf args data) fs0).1 =
          staleValues (expectedIndexFiles args (sectionsOf args data) (sortedOf args data))
            (writePhase { args with dryRun := false }
              (sectionsOf args data) (sortedOf args data) fs0).1 := by
        rw [writePhase_dry args hd]
        obtain ⟨extra, hfiles, hsub⟩ := writePhase_files_append
          { args with dryRun := false } rfl (sectionsOf args data) (sortedOf args data) fs0
        have hsub2 : ∀ x ∈ extra,
            x ∈ expectedIndexFiles args (sectionsOf args data) (sortedOf args data) := hsub
        rw [staleValues_files_congr _ _
          (⟨fs0.files ++ extra,
            ((writePhase { args with dryRun := false }
              (sectionsOf args data) (sortedOf args data) fs0).1).dirs⟩) hfiles]
        rw [staleValues_append_expected _ _ _ _ fs0.dirs hsub2]
      rw [hstale]
  · have h1 : (missingOf args data).isEmpty = false := by
      cases hM : missingOf args data with
      | nil => exact absurd hM hmiss
      | cons a l => rfl
    have h1b : (missingOf { args with dryRun := false } data).isEmpty = false := h1
    have hm2 : ¬ missingOf { args with dryRun := false } data = [] := hmiss
    constructor
    · unfold runModel
      simp [h1]
    · unfold runModel
      simp only [h1, h1b, Bool.not_false, if_true]
      rfl

/-- Witness for c8_dry_run_frame: a dry run over a prior tree holding a
stale page leaves the filesystem exactly as it was while computing the
same page writes and stale set as the real run. -/
theorem c8_witness :
    (runModel (⟨true, none, true, true⟩ : Args)
      ⟨[⟨"tools/date-tool".toList, "Date Tool".toList, []⟩]⟩
      ⟨[["old".toList, "page".toList, idxSeg]],
       [["old".toList], ["old".toList, "page".toList]]⟩).1 =
      ⟨[["old".toList, "page".toList, idxSeg]],
       [["old".toList], ["old".toList, "page".toList]]⟩ ∧
    ((runModel (⟨true, none, true, true⟩ : Args)
      ⟨[⟨"tools/date-tool".toList, "Date Tool".toList, []⟩]⟩
      ⟨[["old".toList, "page".toList, idxSeg]],
       [["old".toList], ["old".toList, "page".toList]]⟩).2.map
      (fun r => (r.pageWrites, r.staleFiles, r.searchDocs, r.sorted, r.sections,
        r.duplicateWarnings)) =
     (runModel (⟨false, none, true, true⟩ : Args)
      ⟨[⟨"tools/date-tool".toList, "Date Tool".toList, []⟩]⟩
      ⟨[["old".toList, "page".toList, idxSeg]],
       [["old".toList], ["old".toList, "page".toList]]⟩).2.map
      (fun r => (r.pageWrites, r.staleFiles, r.searchDocs, r.sorted, r.sections,
        r.duplicateWarnings))) :=
  c8_dry_run_frame (⟨true, none, true, true⟩ : Args)
    ⟨[⟨"tools/date-tool".toList, "Date Tool".toList, []⟩]⟩
    ⟨[["old".toList, "page".toList, idxSeg]],
     [["old".toList], ["old".toList, "page".toList]]⟩ rfl

/-- Claim C8 counterexample: the removed-directories determination of a
dry run can differ from the real run's.  With no articles and a prior
tree holding the stale page old/index.html, both runs determine the same
stale-file list, but the dry run reports no removable directories — the
stale page was never unlinked, so the directory old still has an entry
when it is examined — while the real run deletes the page and then
removes the emptied directory old. -/
theorem c8_counterexample :
    ((runModel (⟨true, none, true, true⟩ : Args) ⟨[]⟩
        ⟨[["old".toList, idxSeg]], [["old".toList]]⟩).2.map
      (fun r => r.staleFiles) =
     (runModel (⟨false, none, true, true⟩ : Args) ⟨[]⟩
        ⟨[["old".toList, idxSeg]], [["old".toList]]⟩).2.map
      (fun r => r.staleFiles)) ∧
    ((runModel (⟨true, none, true, true⟩ : Args) ⟨[]⟩
        ⟨[["old".toList, idxSeg]], [["old".toList]]⟩).2.map
      (fun r => r.dirsRemoved) = .ok []) ∧
    ((runModel (⟨false, none, true, true⟩ : Args) ⟨[]⟩
        ⟨[["old".toList, idxSeg]], [["old".toList]]⟩).2.map
      (fun r => r.dirsRemoved) = .ok [["old".toList]]) := by
  exact ⟨by decide, by decide, by decide⟩

/-- Witness for c10_empty_block_omitted: a concrete three-block array
whose middle block is blank; the surviving blocks keep identifiers c1 and
c3. -/
theorem c10_witness :
    renderCodeBlocksFrom ("page".toList) 0 0
        ([⟨"x".toList, [], "first".toList⟩] ++
          (⟨"  ".toList, [], "&#160;".toList⟩ : CodeBlock) ::
            [⟨"y".toList, [], "third".toList⟩]) =
      renderCodeBlocksFrom ("page".toList) 0 0 [⟨"x".toList, [], "first".toList⟩] ++
        renderCodeBlocksFrom ("page".toList) 0 (0 + 1 + 1)
          [⟨"y".toList, [], "third".toList⟩] := by
  have h := c10_empty_block_omitted ("page".toList) 0 0
    [⟨"x".toList, [], "first".toList⟩] [⟨"y".toList, [], "third".toList⟩]
    ⟨"  ".toList, [], "&#160;".toList⟩ (by decide) (by decide)
  simpa using h

theorem raF_congr (p0 : Char) (ps r : Str) :
    ∀ (f1 f2 : Nat) (s : Str), s.length ≤ f1 → s.length ≤ f2 →
      raF p0 ps r f1 s = raF p0 ps r f2 s := by
  intro f1
  induction f1 with
  | zero =>
    intro f2 s h1 h2
    have hs : s = [] := List.length_eq_zero.1 (Nat.le_zero.1 h1)
    subst hs
    cases f2 <;> rfl
  | succ f1 ih =>
    intro f2 s h1 h2
    cases s with
    | nil => cases f2 <;> rfl
    | cons c s =>
      cases f2 with
      | zero => exact absurd h2 (by simp)
      | succ f2 =>
        simp only [raF]
        have hc1 : s.length ≤ f1 := by
          have := h1
          simp only [List.length_cons] at this
          omega
        have hc2 : s.length ≤ f2 := by
          have := h2
          simp only [List.length_cons] at this
          omega
        split
        · have hd1 : ((c :: s).drop (ps.length + 1)).length ≤ f1 := by
            simp only [List.length_drop, List.length_cons]
            omega
          have hd2 : ((c :: s).drop (ps.length + 1)).length ≤ f2 := by
            simp only [List.length_drop, List.length_cons]
            omega
          rw [ih _ _ hd1 hd2]
        · rw [ih _ _ hc1 hc2]

theorem ra_cons (p0 : Char) (ps r : Str) (c : Char) (s : Str) :
    ra p0 ps r (c :: s) =
      if (p0 :: ps).isPrefixOf (c :: s) then
        r ++ ra p0 ps r ((c :: s).drop (ps.length + 1))
      else c :: ra p0 ps r s := by
  show raF p0 ps r (s.length + 1) (c :: s) = _
  simp only [raF]
  split
  · congr 1
    exact raF_congr p0 ps r s.length _ _
      (by simp only [List.length_drop, List.length_cons]; omega) (Nat.le_refl _)
  · rfl

theorem ra_cons_false (p0 : Char) (ps r : Str) (c : Char) (s : Str)
    (h : (p0 :: ps).isPrefixOf (c :: s) = false) :
    ra p0 ps r (c :: s) = c :: ra p0 ps r s := by
  rw [ra_cons, h]
  simp

theorem ra_cons_true (p0 : Char) (ps r : Str) (c : Char) (s : Str)
    (h : (p0 :: ps).isPrefixOf (c :: s) = true) :
    ra p0 ps r (c :: s) = r ++ ra p0 ps r ((c :: s).drop (ps.length + 1)) := by
  rw [ra_cons, h]
  simp

theorem ra_cons_ne (p0 : Char) (ps r : Str) (c : Char) (s : Str) (h : c ≠ p0) :
    ra p0 ps r (c :: s) = c :: ra p0 ps r s := by
  apply ra_cons_false
  have hb : (p0 == c) = false := beq_eq_false_iff_ne.2 (Ne.symm h)
  rw [List.isPrefixOf_cons₂, hb, Bool.false_and]

theorem ra_no_hit (p0 : Char) (ps r : Str) :
    ∀ (u t : Str), (∀ c ∈ u, c ≠ p0) →
      ra p0 ps r (u ++ t) = u ++ ra p0 ps r t := by
  intro u
  induction u with
  | nil => intro t _; rfl
  | cons c u ih =>
    intro t h
    rw [List.cons_append, ra_cons_ne _ _ _ _ _ (h c (by simp)),
      ih t (fun d hd => h d (by simp [hd]))]
    rfl

theorem ra_self (p0 : Char) (ps r : Str) (t : Str) :
    ra p0 ps r ((p0 :: ps) ++ t) = r ++ ra p0 ps r t := by
  have hpre : (p0 :: ps).isPrefixOf (p0 :: (ps ++ t)) = true := by
    rw [show p0 :: (ps ++ t) = (p0 :: ps) ++ t from rfl]
    exact List.isPrefixOf_iff_prefix.2 (List.prefix_append _ _)
  rw [List.cons_append, ra_cons_true p0 ps r p0 (ps ++ t) hpre]
  congr 1
  rw [List.drop_succ_cons, List.drop_left]

theorem ra_ent_skip (p0 : Char) (ps r : Str) (e0 : Char) (etail t : Str)
    (h0 : (p0 :: ps).isPrefixOf (e0 :: (etail ++ t)) = false)
    (hno : ∀ c ∈ etail, c ≠ p0) :
    ra p0 ps r ((e0 :: etail) ++ t) = (e0 :: etail) ++ ra p0 ps r t := by
  rw [List.cons_append, ra_cons_false _ _ _ _ _ h0, ra_no_hit _ _ _ _ _ hno]
  rfl

theorem ra2F_congr (p0 : Char) (ps : Str) (q0 : Char) (qs r : Str) :
    ∀ (f1 f2 : Nat) (s : Str), s.length ≤ f1 → s.length ≤ f2 →
      ra2F p0 ps q0 qs r f1 s = ra2F p0 ps q0 qs r f2 s := by
  intro f1
  induction f1 with
  | zero =>
    intro f2 s h1 h2
    have hs : s = [] := List.length_eq_zero.1 (Nat.le_zero.1 h1)
    subst hs
    cases f2 <;> rfl
  | succ f1 ih =>
    intro f2 s h1 h2
    cases s with
    | nil => cases f2 <;> rfl
    | cons c s =>
      cases f2 with
      | zero => exact absurd h2 (by simp)
      | succ f2 =>
        simp only [ra2F]
        have hc1 : s.length ≤ f1 := by
          have := h1
          simp only [List.length_cons] at this
          omega
        have hc2 : s.length ≤ f2 := by
          have := h2
          simp only [List.length_cons] at this
          omega
        split
        · have hd1 : ((c :: s).drop (ps.length + 1)).length ≤ f1 := by
            simp only [List.length_drop, List.length_cons]
            omega
          have hd2 : ((c :: s).drop (ps.length + 1)).length ≤ f2 := by
            simp only [List.length_drop, List.length_cons]
            omega
          rw [ih _ _ hd1 hd2]
        · split
          · have hd1 : ((c :: s).drop (qs.length + 1)).length ≤ f1 := by
              simp only [List.length_drop, List.length_cons]
              omega
            have hd2 : ((c :: s).drop (qs.length + 1)).length ≤ f2 := by
              simp only [List.length_drop, List.length_cons]
              omega
            rw [ih _ _ hd1 hd2]
          · rw [ih _ _ hc1 hc2]

theorem ra2_cons (p0 : Char) (ps : Str) (q0 : Char) (qs r : Str) (c : Char) (s : Str) :
    ra2 p0 ps q0 qs r (c :: s) =
      if (p0 :: ps).isPrefixOf (c :: s) then
        r ++ ra2 p0 ps q0 qs r ((c :: s).drop (ps.length + 1))
      else if (q0 :: qs).isPrefixOf (c :: s) then
        r ++ ra2 p0 ps q0 qs r ((c :: s).drop (qs.length + 1))
      else c :: ra2 p0 ps q0 qs r s := by
  show ra2F p0 ps q0 qs r (s.length + 1) (c :: s) = _
  simp only [ra2F]
  split
  · congr 1
    exact ra2F_congr p0 ps q0 qs r s.length _ _
      (by simp only [List.length_drop, List.length_cons]; omega) (Nat.le_refl _)
  · split
    · congr 1
      exact ra2F_congr p0 ps q0 qs r s.length _ _
        (by simp only [List.length_drop, List.length_cons]; omega) (Nat.le_refl _)
    · rfl

theorem ra2_cons_false (p0 : Char) (ps : Str) (q0 : Char) (qs r : Str) (c : Char) (s : Str)
    (h0 : (p0 :: ps).isPrefixOf (c :: s) = false)
    (h1 : (q0 :: qs).isPrefixOf (c :: s) = false) :
    ra2 p0 ps q0 qs r (c :: s) = c :: ra2 p0 ps q0 qs r s := by
  rw [ra2_cons, h0, h1]
  simp

theorem ra2_cons_true1 (p0 : Char) (ps : Str) (q0 : Char) (qs r : Str) (c : Char) (s : Str)
    (h0 : (p0 :: ps).isPrefixOf (c :: s) = true) :
    ra2 p0 ps q0 qs r (c :: s) =
      r ++ ra2 p0 ps q0 qs r ((c :: s).drop (ps.length + 1)) := by
  rw [ra2_cons, h0]
  simp

theorem ra2_cons_ne (p0 : Char) (ps : Str) (q0 : Char) (qs r : Str) (c : Char) (s : Str)
    (hp : c ≠ p0) (hq : c ≠ q0) :
    ra2 p0 ps q0 qs r (c :: s) = c :: ra2 p0 ps q0 qs r s := by
  apply ra2_cons_false
  · have hb : (p0 == c) = false := beq_eq_false_iff_ne.2 (Ne.symm hp)
    rw [List.isPrefixOf_cons₂, hb, Bool.false_and]
  · have hb : (q0 == c) = false := beq_eq_false_iff_ne.2 (Ne.symm hq)
    rw [List.isPrefixOf_cons₂, hb, Bool.false_and]

theorem ra2_no_hit (p0 : Char) (ps : Str) (q0 : Char) (qs r : Str) :
    ∀ (u t : Str), (∀ c ∈ u, c ≠ p0 ∧ c ≠ q0) →
      ra2 p0 ps q0 qs r (u ++ t) = u ++ ra2 p0 ps q0 qs r t := by
  intro u
  induction u with
  | nil => intro t _; rfl
  | cons c u ih =>
    intro t h
    rw [List.cons_append,
      ra2_cons_ne _ _ _ _ _ _ _ (h c (by simp)).1 (h c (by simp)).2,
      ih t (fun d hd => h d (by simp [hd]))]
    rfl

theorem ra2_self1 (p0 : Char) (ps : Str) (q0 : Char) (qs r : Str) (t : Str) :
    ra2 p0 ps q0 qs r ((p0 :: ps) ++ t) = r ++ ra2 p0 ps q0 qs r t := by
  have hpre : (p0 :: ps).isPrefixOf (p0 :: (ps ++ t)) = true := by
    rw [show p0 :: (ps ++ t) = (p0 :: ps) ++ t from rfl]
    exact List.isPrefixOf_iff_prefix.2 (List.prefix_append _ _)
  rw [List.cons_append, ra2_cons_true1 p0 ps q0 qs r p0 (ps ++ t) hpre]
  congr 1
  rw [List.drop_succ_cons, List.drop_left]

theorem ra2_ent_skip (p0 : Char) (ps : Str) (q0 : Char) (qs r : Str)
    (e0 : Char) (etail t : Str)
    (h0 : (p0 :: ps).isPrefixOf (e0 :: (etail ++ t)) = false)
    (h1 : (q0 :: qs).isPrefixOf (e0 :: (etail ++ t)) = false)
    (hno : ∀ c ∈ etail, c ≠ p0 ∧ c ≠ q0) :
    ra2 p0 ps q0 qs r ((e0 :: etail) ++ t) = (e0 :: etail) ++ ra2 p0 ps q0 qs r t := by
  rw [List.cons_append, ra2_cons_false _ _ _ _ _ _ _ h0 h1,
    ra2_no_hit _ _ _ _ _ _ _ hno]
  rfl

theorem ra_one_flatMap (p0 : Char) (r : Str) :
    ∀ s : Str, ra p0 [] r s = s.flatMap (fun c => if c = p0 then r else [c]) := by
  intro s
  induction s with
  | nil => rfl
  | cons c s ih =>
    rw [List.flatMap_cons]
    by_cases h : c = p0
    · subst h
      have hpre : ([c] : Str).isPrefixOf (c :: s) = true := by
        rw [List.isPrefixOf_cons₂]
        simp
      rw [ra_cons_true c [] r c s hpre, if_pos rfl]
      exact congrArg (fun x => r ++ x) ih
    · rw [ra_cons_ne p0 [] r c s h, ih, if_neg h]
      rfl

theorem escapeHtml_flatMap (s : Str) : escapeHtml s = s.flatMap escChar := by
  unfold escapeHtml
  rw [ra_one_flatMap, ra_one_flatMap, ra_one_flatMap, ra_one_flatMap, ra_one_flatMap,
    List.flatMap_assoc, List.flatMap_assoc, List.flatMap_assoc, List.flatMap_assoc]
  congr 1
  funext c
  by_cases h1 : c = '&'
  · subst h1; rfl
  by_cases h2 : c = '<'
  · subst h2; rfl
  by_cases h3 : c = '>'
  · subst h3; rfl
  by_cases h4 : c = '"'
  · subst h4; rfl
  by_cases h5 : c = '\''
  · subst h5; rfl
  simp [escChar, h1, h2, h3, h4, h5]

theorem decode_stage1 (s : Str) :
    ra2 '&' "#160;".toList '&' "nbsp;".toList " ".toList (s.flatMap escChar)
      = s.flatMap escChar := by
  induction s with
  | nil => rfl
  | cons c s ih =>
    rw [List.flatMap_cons]
    by_cases h1 : c = '&'
    · subst h1
      show ra2 '&' "#160;".toList '&' "nbsp;".toList " ".toList
          (('&' :: "amp;".toList) ++ List.flatMap s escChar)
        = ('&' :: "amp;".toList) ++ List.flatMap s escChar
      rw [ra2_ent_skip '&' "#160;".toList '&' "nbsp;".toList " ".toList '&'
        "amp;".toList (List.flatMap s escChar) rfl rfl (by decide), ih]
    by_cases h2 : c = '<'
    · subst h2
      show ra2 '&' "#160;".toList '&' "nbsp;".toList " ".toList
          (('&' :: "lt;".toList) ++ List.flatMap s escChar)
        = ('&' :: "lt;".toList) ++ List.flatMap s escChar
      rw [ra2_ent_skip '&' "#160;".toList '&' "nbsp;".toList " ".toList '&'
        "lt;".toList (List.flatMap s escChar) rfl rfl (by decide), ih]
    by_cases h3 : c = '>'
    · subst h3
      show ra2 '&' "#160;".toList '&' "nbsp;".toList " ".toList
          (('&' :: "gt;".toList) ++ List.flatMap s escChar)
        = ('&' :: "gt;".toList) ++ List.flatMap s escChar
      rw [ra2_ent_skip '&' "#160;".toList '&' "nbsp;".toList " ".toList '&'
        "gt;".toList (List.flatMap s escChar) rfl rfl (by decide), ih]
    by_cases h4 : c = '"'
    · subst h4
      show ra2 '&' "#160;".toList '&' "nbsp;".toList " ".toList
          (('&' :: "quot;".toList) ++ List.flatMap s escChar)
        = ('&' :: "quot;".toList) ++ List.flatMap s escChar
      rw [ra2_ent_skip '&' "#160;".toList '&' "nbsp;".toList " ".toList '&'
        "quot;".toList (List.flatMap s escChar) rfl rfl (by decide), ih]
    by_cases h5 : c = '\''
    · subst h5
      show ra2 '&' "#160;".toList '&' "nbsp;".toList " ".toList
          (('&' :: "#39;".toList) ++ List.flatMap s escChar)
        = ('&' :: "#39;".toList) ++ List.flatMap s escChar
      rw [ra2_ent_skip '&' "#160;".toList '&' "nbsp;".toList " ".toList '&'
        "#39;".toList (List.flatMap s escChar) rfl rfl (by decide), ih]
    rw [show escChar c = [c] from by simp [escChar, h1, h2, h3, h4, h5],
      List.singleton_append,
      ra2_cons_ne '&' "#160;".toList '&' "nbsp;".toList " ".toList c
        (List.flatMap s escChar) h1 h1, ih]

theorem decode_stage2 (s : Str) :
    ra '&' "lt;".toList "<".toList (s.flatMap escChar) = s.flatMap escChar2 := by
  induction s with
  | nil => rfl
  | cons c s ih =>
    rw [List.flatMap_cons, List.flatMap_cons]
    by_cases h1 : c = '&'
    · subst h1
      show ra '&' "lt;".toList "<".toList
          (('&' :: "amp;".toList) ++ List.flatMap s escChar)
        = ('&' :: "amp;".toList) ++ List.flatMap s escChar2
      rw [ra_ent_skip '&' "lt;".toList "<".toList '&' "amp;".toList
        (List.flatMap s escChar) rfl (by decide), ih]
    by_cases h2 : c = '<'
    · subst h2
      show ra '&' "lt;".toList "<".toList
          (('&' :: "lt;".toList) ++ List.flatMap s escChar)
        = "<".toList ++ List.flatMap s escChar2
      rw [ra_self '&' "lt;".toList "<".toList (List.flatMap s escChar), ih]
    by_cases h3 : c = '>'
    · subst h3
      show ra '&' "lt;".toList "<".toList
          (('&' :: "gt;".toList) ++ List.flatMap s escChar)
        = ('&' :: "gt;".toList) ++ List.flatMap s escChar2
      rw [ra_ent_skip '&' "lt;".toList "<".toList '&' "gt;".toList
        (List.flatMap s escChar) rfl (by decide), ih]
    by_cases h4 : c = '"'
    · subst h4
      show ra '&' "lt;".toList "<".toList
          (('&' :: "quot;".toList) ++ List.flatMap s escChar)
        = ('&' :: "quot;".toList) ++ List.flatMap s escChar2
      rw [ra_ent_skip '&' "lt;".toList "<".toList '&' "quot;".toList
        (List.flatMap s escChar) rfl (by decide), ih]
    by_cases h5 : c = '\''
    · subst h5
      show ra '&' "lt;".toList "<".toList
          (('&' :: "#39;".toList) ++ List.flatMap s escChar)
        = ('&' :: "#39;".toList) ++ List.flatMap s escChar2
      rw [ra_ent_skip '&' "lt;".toList "<".toList '&' "#39;".toList
        (List.flatMap s escChar) rfl (by decide), ih]
    rw [show escChar c = [c] from by simp [escChar, h1, h2, h3, h4, h5],
      show escChar2 c = [c] from by simp [escChar2, h1, h3, h4, h5],
      List.singleton_append, List.singleton_append,
      ra_cons_ne '&' "lt;".toList "<".toList c (List.flatMap s escChar) h1, ih]

theorem decode_stage3 (s : Str) :
    ra '&' "gt;".toList ">".toList (s.flatMap escChar2) = s.flatMap escChar3 := by
  induction s with
  | nil => rfl
  | cons c s ih =>
    rw [List.flatMap_cons, List.flatMap_cons]
    by_cases h1 : c = '&'
    · subst h1
      show ra '&' "gt;".toList ">".toList
          (('&' :: "amp;".toList) ++ List.flatMap s escChar2)
        = ('&' :: "amp;".toList) ++ List.flatMap s escChar3
      rw [ra_ent_skip '&' "gt;".toList ">".toList '&' "amp;".toList
        (List.flatMap s escChar2) rfl (by decide), ih]
    by_cases h3 : c = '>'
    · subst h3
      show ra '&' "gt;".toList ">".toList
          (('&' :: "gt;".toList) ++ List.flatMap s escChar2)
        = ">".toList ++ List.flatMap s escChar3
      rw [ra_self '&' "gt;".toList ">".toList (List.flatMap s escChar2), ih]
    by_cases h4 : c = '"'
    · subst h4
      show ra '&' "gt;".toList ">".toList
          (('&' :: "quot;".toList) ++ List.flatMap s escChar2)
        = ('&' :: "quot;".toList) ++ List.flatMap s escChar3
      rw [ra_ent_skip '&' "gt;".toList ">".toList '&' "quot;".toList
        (List.flatMap s escChar2) rfl (by decide), ih]
    by_cases h5 : c = '\''
    · subst h5
      show ra '&' "gt;".toList ">".toList
          (('&' :: "#39;".toList) ++ List.flatMap s escChar2)
        = ('&' :: "#39;".toList) ++ List.flatMap s escChar3
      rw [ra_ent_skip '&' "gt;".toList ">".toList '&' "#39;".toList
        (List.flatMap s escChar2) rfl (by decide), ih]
    rw [show escChar2 c = [c] from by simp [escChar2, h1, h3, h4, h5],
      show escChar3 c = [c] from by simp [escChar3, h1, h4, h5],
      List.singleton_append, List.singleton_append,
      ra_cons_ne '&' "gt;".toList ">".toList c (List.flatMap s escChar2) h1, ih]

theorem decode_stage4 (s : Str) :
    ra '&' "quot;".toList "\"".toList (s.flatMap escChar3) = s.flatMap escChar4 := by
  induction s with
  | nil => rfl
  | cons c s ih =>
    rw [List.flatMap_cons, List.flatMap_cons]
    by_cases h1 : c = '&'
    · subst h1
      show ra '&' "quot;".toList "\"".toList
          (('&' :: "amp;".toList) ++ List.flatMap s escChar3)
        = ('&' :: "amp;".toList) ++ List.flatMap s escChar4
      rw [ra_ent_skip '&' "quot;".toList "\"".toList '&' "amp;".toList
        (List.flatMap s escChar3) rfl (by decide), ih]
    by_cases h4 : c = '"'
    · subst h4
      show ra '&' "quot;".toList "\"".toList
          (('&' :: "quot;".toList) ++ List.flatMap s escChar3)
        = "\"".toList ++ List.flatMap s escChar4
      rw [ra_self '&' "quot;".toList "\"".toList (List.flatMap s escChar3), ih]
    by_cases h5 : c = '\''
    · subst h5
      show ra '&' "quot;".toList "\"".toList
          (('&' :: "#39;".toList) ++ List.flatMap s escChar3)
        = ('&' :: "#39;".toList) ++ List.flatMap s escChar4
      rw [ra_ent_skip '&' "quot;".toList "\"".toList '&' "#39;".toList
        (List.flatMap s escChar3) rfl (by decide), ih]
    rw [show escChar3 c = [c] from by simp [escChar3, h1, h4, h5],
      show escChar4 c = [c] from by simp [escChar4, h1, h5],
      List.singleton_append, List.singleton_append,
      ra_cons_ne '&' "quot;".toList "\"".toList c (List.flatMap s escChar3) h1, ih]

theorem decode_stage5 (s : Str) :
    ra2 '&' "#39;".toList '&' "apos;".toList "'".toList (s.flatMap escChar4)
      = s.flatMap escChar5 := by
  induction s with
  | nil => rfl
  | cons c s ih =>
    rw [List.flatMap_cons, List.flatMap_cons]
    by_cases h1 : c = '&'
    · subst h1
      show ra2 '&' "#39;".toList '&' "apos;".toList "'".toList
          (('&' :: "amp;".toList) ++ List.flatMap s escChar4)
        = ('&' :: "amp;".toList) ++ List.flatMap s escChar5
      rw [ra2_ent_skip '&' "#39;".toList '&' "apos;".toList "'".toList '&'
        "amp;".toList (List.flatMap s escChar4) rfl rfl (by decide), ih]
    by_cases h5 : c = '\''
    · subst h5
      show ra2 '&' "#39;".toList '&' "apos;".toList "'".toList
          (('&' :: "#39;".toList) ++ List.flatMap s escChar4)
        = "'".toList ++ List.flatMap s escChar5
      rw [ra2_self1 '&' "#39;".toList '&' "apos;".toList "'".toList
        (List.flatMap s escChar4), ih]
    rw [show escChar4 c = [c] from by simp [escChar4, h1, h5],
      show escChar5 c = [c] from by simp [escChar5, h1],
      List.singleton_append, List.singleton_append,
      ra2_cons_ne '&' "#39;".toList '&' "apos;".toList "'".toList c
        (List.flatMap s escChar4) h1 h1, ih]

theorem decode_stage6 (s : Str) :
    ra '&' "amp;".toList "&".toList (s.flatMap escChar5) = s := by
  induction s with
  | nil => rfl
  | cons c s ih =>
    rw [List.flatMap_cons]
    by_cases h1 : c = '&'
    · subst h1
      show ra '&' "amp;".toList "&".toList
          (('&' :: "amp;".toList) ++ List.flatMap s escChar5)
        = "&".toList ++ s
      rw [ra_self '&' "amp;".toList "&".toList (List.flatMap s escChar5), ih]
    rw [show escChar5 c = [c] from by simp [escChar5, h1],
      List.singleton_append,
      ra_cons_ne '&' "amp;".toList "&".toList c (List.flatMap s escChar5) h1, ih]

/-- C9: escaping a string with escapeHtml and then decoding the result
with decodeEntities recovers the original string exactly; the module's
HTML escaping is losslessly inverted by its own entity decoder. -/
theorem c9_escape_decode_roundtrip (s : Str) :
    decodeEntities (escapeHtml s) = s := by
  rw [escapeHtml_flatMap]
  unfold decodeEntities
  rw [decode_stage1, decode_stage2, decode_stage3, decode_stage4, decode_stage5,
    decode_stage6]

theorem take_succ_dropLast (p : FPath) (i : Nat) (h : i + 1 ≤ p.length) :
    (p.take (i + 1)).dropLast = p.take i := by
  rw [List.dropLast_eq_take, List.length_take, Nat.min_eq_left h, Nat.add_sub_cancel,
    List.take_take, Nat.min_eq_left (Nat.le_succ i)]

theorem take_ne_self_of_lt (c : FPath) (i : Nat) (h : i < c.length) : c.take i ≠ c := by
  intro hEq
  have hlen := congrArg List.length hEq
  rw [List.length_take] at hlen
  omega

theorem take_ne_nil_of_pos (c : FPath) (i : Nat) (h0 : 0 < i) (h : i ≤ c.length) :
    c.take i ≠ [] := by
  intro hEq
  have hlen := congrArg List.length hEq
  rw [List.length_take, List.length_nil] at hlen
  omega

theorem removeFile_false_def (fs : FS) (f : FPath) :
    removeFileFS fs f false = { fs with files := fs.files.filter (fun q => q != f) } := by
  unfold removeFileFS
  simp

theorem ensureDir_false_def (fs : FS) (d : FPath) :
    ensureDirFS fs d false =
      { fs with dirs := fs.dirs ++
          (((List.range d.length).map (fun i => d.take (i + 1))).filter
            (fun q => !fs.dirs.contains q)) } := by
  unfold ensureDirFS
  simp

theorem ensureDir_dirs_mem (fs : FS) (d : FPath) (q : FPath) :
    q ∈ (ensureDirFS fs d false).dirs ↔
      q ∈ fs.dirs ∨ ∃ i, i < d.length ∧ q = d.take (i + 1) := by
  rw [ensureDir_false_def]
  simp only [List.mem_append, List.mem_filter, List.mem_map, List.mem_range]
  constructor
  · rintro (h | ⟨⟨i, hi, rfl⟩, -⟩)
    · exact Or.inl h
    · exact Or.inr ⟨i, hi, rfl⟩
  · rintro (h | ⟨i, hi, rfl⟩)
    · exact Or.inl h
    · by_cases hq : d.take (i + 1) ∈ fs.dirs
      · exact Or.inl hq
      · exact Or.inr ⟨⟨i, hi, rfl⟩, by simp [hq]⟩

theorem ensureDir_mem_prefix (fs : FS) (d : FPath) (i : Nat) (h0 : 0 < i)
    (h : i ≤ d.length) : d.take i ∈ (ensureDirFS fs d false).dirs := by
  rw [ensureDir_dirs_mem]
  exact Or.inr ⟨i - 1, by omega, by rw [Nat.sub_add_cancel h0]⟩

theorem writeFile_false_dirs (fs : FS) (p : FPath) :
    (writeFileFS fs p false).dirs = fs.dirs := by
  unfold writeFileFS
  split
  · rfl
  · split <;> rfl

theorem hasEntries_of_dir_child (fs : FS) (e d : FPath)
    (he : e ∈ fs.dirs) (hne : e ≠ []) (hdl : e.dropLast = d) :
    hasEntriesFS fs d = true := by
  unfold hasEntriesFS
  refine Bool.or_eq_true_iff.2 (Or.inr ?_)
  rw [List.any_eq_true]
  exact ⟨e, he, by simp [hne, hdl, List.isEmpty_iff]⟩

theorem hasEntries_of_file_child (fs : FS) (e d : FPath)
    (he : e ∈ fs.files) (hne : e ≠ []) (hdl : e.dropLast = d) :
    hasEntriesFS fs d = true := by
  unfold hasEntriesFS
  refine Bool.or_eq_true_iff.2 (Or.inl ?_)
  rw [List.any_eq_true]
  exact ⟨e, he, by simp [hne, hdl, List.isEmpty_iff]⟩

theorem hasEntries_mono (fs1 fs2 : FS) (d : FPath)
    (hf : ∀ p ∈ fs1.files, p ∈ fs2.files) (hdir : ∀ p ∈ fs1.dirs, p ∈ fs2.dirs)
    (h : hasEntriesFS fs1 d = true) : hasEntriesFS fs2 d = true := by
  unfold hasEntriesFS at h ⊢
  rcases Bool.or_eq_true_iff.1 h with h | h
  · rcases List.any_eq_true.1 h with ⟨e, he, hp⟩
    exact Bool.or_eq_true_iff.2 (Or.inl (List.any_eq_true.2 ⟨e, hf e he, hp⟩))
  · rcases List.any_eq_true.1 h with ⟨e, he, hp⟩
    exact Bool.or_eq_true_iff.2 (Or.inr (List.any_eq_true.2 ⟨e, hdir e he, hp⟩))

theorem WF_removeFile (fs : FS) (f : FPath) (h : WF fs) : WF (removeFileFS fs f false) := by
  rw [removeFile_false_def]
  exact ⟨fun p hp => h.1 p (List.mem_filter.1 hp).1, h.2⟩

theorem WF_ensureDir (fs : FS) (d : FPath) (h : WF fs) : WF (ensureDirFS fs d false) := by
  constructor
  · intro p hp
    rw [show (ensureDirFS fs d false).files = fs.files from ensureDir_files fs d false] at hp
    obtain ⟨hne, hcl⟩ := h.1 p hp
    exact ⟨hne, fun j hj h0 => (ensureDir_dirs_mem fs d _).2 (Or.inl (hcl j hj h0))⟩
  · intro p hp
    rw [ensureDir_dirs_mem] at hp
    rcases hp with hp | ⟨i, hi, rfl⟩
    · obtain ⟨hne, hcl⟩ := h.2 p hp
      exact ⟨hne, fun j hj h0 => (ensureDir_dirs_mem fs d _).2 (Or.inl (hcl j hj h0))⟩
    · constructor
      · exact take_ne_nil_of_pos d (i + 1) (Nat.succ_pos i) (by omega)
      · intro j hj h0
        rw [List.length_take] at hj
        rw [List.take_take]
        have hmin : min j (i + 1) = j := by omega
        rw [hmin]
        exact (ensureDir_dirs_mem fs d _).2
          (Or.inr ⟨j - 1, by omega, by rw [Nat.sub_add_cancel h0]⟩)

theorem WF_writeFile (fs : FS) (p : FPath) (h : WF fs) (hp : p ≠ [])
    (hcl : ∀ i, i < p.length → 0 < i → p.take i ∈ fs.dirs) :
    WF (writeFileFS fs p false) := by
  constructor
  · intro q hq
    rw [writeFile_files_mem] at hq
    rcases hq with hq | rfl
    · obtain ⟨hne, hc⟩ := h.1 q hq
      exact ⟨hne, fun j hj h0 => by rw [writeFile_false_dirs]; exact hc j hj h0⟩
    · exact ⟨hp, fun j hj h0 => by rw [writeFile_false_dirs]; exact hcl j hj h0⟩
  · intro q hq
    rw [writeFile_false_dirs] at hq
    obtain ⟨hne, hc⟩ := h.2 q hq
    exact ⟨hne, fun j hj h0 => by rw [writeFile_false_dirs]; exact hc j hj h0⟩

theorem WF_writeStep (fs : FS) (dir : FPath) (h : WF fs) :
    WF (writeFileFS (ensureDirFS fs dir false) (dir ++ [idxSeg]) false) := by
  apply WF_writeFile _ _ (WF_ensureDir fs dir h)
  · simp
  · intro i hi h0
    have hi' : i ≤ dir.length := by
      rw [List.length_append, List.length_singleton] at hi
      omega
    rw [List.take_append_of_le_length hi']
    exact ensureDir_mem_prefix fs dir i h0 hi'

theorem WF_articleFold :
    ∀ (l : List Article) (st : FS × List FPath), WF st.1 →
      WF ((l.foldl
        (fun (st : FS × List FPath) a =>
          (writeFileFS (ensureDirFS st.1 (segsOf a.path) false)
            (segsOf a.path ++ [idxSeg]) false,
           st.2 ++ [segsOf a.path ++ [idxSeg]]))
        st).1) := by
  intro l
  induction l with
  | nil => intro st h; exact h
  | cons a l ih =>
    intro st h
    simp only [List.foldl_cons]
    exact ih _ (WF_writeStep st.1 (segsOf a.path) h)

theorem WF_landingFold :
    ∀ (l : List SectionModel) (st : FS × List FPath), WF st.1 →
      WF ((l.foldl
        (fun (st : FS × List FPath) s =>
          (writeFileFS (ensureDirFS st.1 [s.path] false) [s.path, idxSeg] false,
           st.2 ++ [[s.path, idxSeg]]))
        st).1) := by
  intro l
  induction l with
  | nil => intro st h; exact h
  | cons s l ih =>
    intro st h
    simp only [List.foldl_cons]
    exact ih _ (WF_writeStep st.1 [s.path] h)

theorem WF_writePhase (args : Args) (hd : args.dryRun = false)
    (sections : List SectionModel) (sorted : List Article) (fs0 : FS) (h : WF fs0) :
    WF (writePhase args sections sorted fs0).1 := by
  unfold writePhase
  rw [hd]
  apply WF_articleFold
  split
  · apply WF_landingFold
    split
    · exact WF_writeStep fs0 [] h
    · exact h
  · split
    · exact WF_writeStep fs0 [] h
    · exact h

theorem no_proper_under (fs : FS) (c : FPath) (hwf : WF fs)
    (hemp : hasEntriesFS fs c = false) :
    ∀ p, (p ∈ fs.files ∨ p ∈ fs.dirs) → ∀ i, i < p.length → p.take i = c → False := by
  intro p hp i hi hEq
  by_cases hip : i + 1 < p.length
  · have hqd : p.take (i + 1) ∈ fs.dirs := by
      rcases hp with hp | hp
      · exact (hwf.1 p hp).2 (i + 1) hip (Nat.succ_pos i)
      · exact (hwf.2 p hp).2 (i + 1) hip (Nat.succ_pos i)
    have hent : hasEntriesFS fs c = true :=
      hasEntries_of_dir_child fs (p.take (i + 1)) c hqd
        (take_ne_nil_of_pos p (i + 1) (Nat.succ_pos i) (by omega))
        (by rw [take_succ_dropLast p i (by omega), hEq])
    rw [hemp] at hent
    exact Bool.false_ne_true hent
  · have hip' : i + 1 = p.length := by omega
    have hdl : p.dropLast = c := by
      rw [← hEq, List.dropLast_eq_take]
      congr 1
      omega
    have hpne : p ≠ [] := by
      intro hE
      rw [hE, List.length_nil] at hi
      omega
    have hent : hasEntriesFS fs c = true := by
      rcases hp with hp | hp
      · exact hasEntries_of_file_child fs p c hp hpne hdl
      · exact hasEntries_of_dir_child fs p c hp hpne hdl
    rw [hemp] at hent
    exact Bool.false_ne_true hent

theorem WF_remove_empty (fs : FS) (c : FPath) (hwf : WF fs)
    (hemp : hasEntriesFS fs c = false) :
    WF { fs with dirs := fs.dirs.filter (fun q => q != c) } := by
  constructor
  · intro p hp
    obtain ⟨hne, hcl⟩ := hwf.1 p hp
    refine ⟨hne, fun i hi h0 => ?_⟩
    simp only [List.mem_filter]
    refine ⟨hcl i hi h0, ?_⟩
    have hne2 : p.take i ≠ c := fun hEq =>
      no_proper_under fs c hwf hemp p (Or.inl hp) i hi hEq
    simp [hne2]
  · intro p hp
    simp only [List.mem_filter] at hp
    obtain ⟨hne, hcl⟩ := hwf.2 p hp.1
    refine ⟨hne, fun i hi h0 => ?_⟩
    simp only [List.mem_filter]
    refine ⟨hcl i hi h0, ?_⟩
    have hne2 : p.take i ≠ c := fun hEq =>
      no_proper_under fs c hwf hemp p (Or.inr hp.1) i hi hEq
    simp [hne2]

theorem walkUp_master :
    ∀ (n : Nat) (c : FPath) (fs : FS), c.length = n → WF fs →
      (∀ i, 0 < i → i ≤ c.length → c.take i ∈ fs.dirs) →
      WF ((walkUp false fs c).1) ∧
      ((walkUp false fs c).1).files = fs.files ∧
      (∀ d, d ∈ ((walkUp false fs c).1).dirs → d ∈ fs.dirs) ∧
      (∀ d, d ∈ fs.dirs → d ∉ ((walkUp false fs c).1).dirs →
        ∃ i, 0 < i ∧ i ≤ c.length ∧ d = c.take i) ∧
      (∀ i, 0 < i → i ≤ c.length → c.take i ∈ ((walkUp false fs c).1).dirs →
        hasEntriesFS ((walkUp false fs c).1) (c.take i) = true) := by
  intro n
  induction n with
  | zero =>
    intro c fs hc hwf hch
    have hcnil : c = [] := List.length_eq_zero.1 hc
    subst hcnil
    refine ⟨hwf, rfl, fun d hd => hd, fun d hd hnd => absurd hd hnd, ?_⟩
    intro i h0 hle
    rw [List.length_nil] at hle
    omega
  | succ n ih =>
    intro c fs hc hwf hch
    have hcne : c ≠ [] := by
      intro h
      rw [h, List.length_nil] at hc
      omega
    have hcmem : c ∈ fs.dirs := by
      have h := hch c.length (by omega) (Nat.le_refl _)
      rwa [List.take_length] at h
    have h1 : c.isEmpty = false := by simp [List.isEmpty_iff, hcne]
    have h2 : fs.dirs.contains c = true := by simp [hcmem]
    have hwu : walkUp false fs c = walkUpF false (n + 1) fs c := by
      unfold walkUp
      rw [hc]
    rw [hwu]
    by_cases hent : hasEntriesFS fs c = true
    · simp only [walkUpF, h1, h2, hent, Bool.false_eq_true, Bool.not_true, if_false, if_true]
      refine ⟨hwf, by trivial, fun d hd => hd, fun d hd hnd => absurd hd hnd, ?_⟩
      intro i h0 hle hmem
      by_cases hi : i = c.length
      · rw [hi, List.take_length]
        exact hent
      · exact hasEntries_of_dir_child fs (c.take (i + 1)) (c.take i)
          (hch (i + 1) (by omega) (by omega))
          (take_ne_nil_of_pos c (i + 1) (by omega) (by omega))
          (take_succ_dropLast c i (by omega))
    · have hent' : hasEntriesFS fs c = false := by
        cases hB : hasEntriesFS fs c
        · rfl
        · exact absurd hB hent
      simp only [walkUpF, h1, h2, hent', Bool.false_eq_true, Bool.not_true, if_false, if_true]
      have htk_gen : ∀ i, i ≤ n → (c.dropLast).take i = c.take i := by
        intro i hle
        rw [List.dropLast_eq_take, List.take_take]
        congr 1
        omega
      have hstep : walkUpF false n ({ fs with dirs := fs.dirs.filter (fun q => q != c) })
          c.dropLast =
          walkUp false ({ fs with dirs := fs.dirs.filter (fun q => q != c) }) c.dropLast := by
        unfold walkUp
        rw [List.length_dropLast, hc, Nat.add_sub_cancel]
      rw [hstep]
      have hlen : (c.dropLast).length = n := by
        rw [List.length_dropLast, hc, Nat.add_sub_cancel]
      have hwf1 : WF ({ fs with dirs := fs.dirs.filter (fun q => q != c) }) :=
        WF_remove_empty fs c hwf hent'
      have hch1 : ∀ i, 0 < i → i ≤ (c.dropLast).length →
          (c.dropLast).take i ∈ ({ fs with dirs := fs.dirs.filter (fun q => q != c) }).dirs := by
        intro i h0 hle
        rw [hlen] at hle
        rw [htk_gen i hle]
        simp only [List.mem_filter]
        refine ⟨hch i h0 (by omega), ?_⟩
        have hne2 : c.take i ≠ c := take_ne_self_of_lt c i (by omega)
        simp [hne2]
      obtain ⟨ihWF, ihfiles, ihsub, ihrem, ihclean⟩ :=
        ih c.dropLast ({ fs with dirs := fs.dirs.filter (fun q => q != c) }) hlen hwf1 hch1
      refine ⟨ihWF, ihfiles, ?_, ?_, ?_⟩
      · intro d hd
        have h := ihsub d hd
        simp only [List.mem_filter] at h
        exact h.1
      · intro d hd hnd
        by_cases hdc : d = c
        · exact ⟨c.length, by omega, Nat.le_refl _, by rw [hdc, List.take_length]⟩
        · have hd1 : d ∈ ({ fs with dirs := fs.dirs.filter (fun q => q != c) }).dirs := by
            simp only [List.mem_filter]
            exact ⟨hd, by simp [hdc]⟩
          obtain ⟨i, h0, hle, hEq⟩ := ihrem d hd1 hnd
          rw [hlen] at hle
          exact ⟨i, h0, by omega, by rw [hEq, htk_gen i hle]⟩
      · intro i h0 hle hmem
        by_cases hi : i = c.length
        · exfalso
          have hc1 := ihsub _ hmem
          simp only [List.mem_filter] at hc1
          have hbad := hc1.2
          rw [hi, List.take_length] at hbad
          simp at hbad
        · have hle' : i ≤ n := by omega
          rw [← htk_gen i hle'] at hmem ⊢
          exact ihclean i h0 (by omega) hmem

theorem dropLast_take_comm (f : FPath) (i : Nat) (h : i ≤ f.length - 1) :
    (f.dropLast).take i = f.take i := by
  rw [List.dropLast_eq_take, List.take_take]
  congr 1
  omega

theorem hasEntries_elim (fs : FS) (d : FPath) (h : hasEntriesFS fs d = true) :
    ∃ e, (e ∈ fs.files ∨ e ∈ fs.dirs) ∧ e ≠ [] ∧ e.dropLast = d := by
  unfold hasEntriesFS at h
  rcases Bool.or_eq_true_iff.1 h with h | h
  · rcases List.any_eq_true.1 h with ⟨e, he, hp⟩
    simp only [Bool.and_eq_true] at hp
    rcases hp with ⟨hp1, hp2⟩
    refine ⟨e, Or.inl he, ?_, eq_of_beq hp2⟩
    intro hE
    rw [hE] at hp1
    simp at hp1
  · rcases List.any_eq_true.1 h with ⟨e, he, hp⟩
    simp only [Bool.and_eq_true] at hp
    rcases hp with ⟨hp1, hp2⟩
    refine ⟨e, Or.inr he, ?_, eq_of_beq hp2⟩
    intro hE
    rw [hE] at hp1
    simp at hp1

theorem pruneFold_clean :
    ∀ (l : List FPath) (st : FS × List FPath) (done : List FPath),
      WF st.1 →
      (∀ f ∈ l, f ∈ st.1.files) →
      l.Nodup →
      (∀ g ∈ done, ∀ i, 0 < i → i < g.length → g.take i ∈ st.1.dirs →
        hasEntriesFS st.1 (g.take i) = true) →
      WF ((l.foldl
        (fun (st : FS × List FPath) f =>
          let fsA := removeFileFS st.1 f false
          let step := walkUp false fsA f.dropLast
          (step.1, st.2 ++ step.2))
        st).1) ∧
      (∀ d, d ∈ ((l.foldl
        (fun (st : FS × List FPath) f =>
          let fsA := removeFileFS st.1 f false
          let step := walkUp false fsA f.dropLast
          (step.1, st.2 ++ step.2))
        st).1).dirs → d ∈ st.1.dirs) ∧
      (∀ g, g ∈ done ++ l → ∀ i, 0 < i → i < g.length →
        g.take i ∈ ((l.foldl
          (fun (st : FS × List FPath) f =>
            let fsA := removeFileFS st.1 f false
            let step := walkUp false fsA f.dropLast
            (step.1, st.2 ++ step.2))
          st).1).dirs →
        hasEntriesFS ((l.foldl
          (fun (st : FS × List FPath) f =>
            let fsA := removeFileFS st.1 f false
            let step := walkUp false fsA f.dropLast
            (step.1, st.2 ++ step.2))
          st).1) (g.take i) = true) := by
  intro l
  induction l with
  | nil =>
    intro st done hwf hpres hnd hclean
    refine ⟨hwf, fun d hd => hd, ?_⟩
    intro g hg
    rw [List.append_nil] at hg
    exact hclean g hg
  | cons f l ih =>
    intro st done hwf hpres hnd hclean
    simp only [List.foldl_cons]
    have hfmem : f ∈ st.1.files := hpres f (List.mem_cons_self f l)
    have hndc := List.nodup_cons.1 hnd
    have hwfA : WF (removeFileFS st.1 f false) := WF_removeFile st.1 f hwf
    have hfne : f ≠ [] := (hwf.1 f hfmem).1
    have hfpos : 0 < f.length := List.length_pos.2 hfne
    have hchA : ∀ i, 0 < i → i ≤ (f.dropLast).length →
        (f.dropLast).take i ∈ (removeFileFS st.1 f false).dirs := by
      intro i h0 hle
      rw [List.length_dropLast] at hle
      rw [dropLast_take_comm f i hle]
      rw [removeFile_false_def]
      exact (hwf.1 f hfmem).2 i (by omega) h0
    obtain ⟨mWF, mfiles, msub, mrem, mclean⟩ :=
      walkUp_master (f.dropLast).length f.dropLast (removeFileFS st.1 f false) rfl hwfA hchA
    have hpres' : ∀ g ∈ l,
        g ∈ ((walkUp false (removeFileFS st.1 f false) f.dropLast).1).files := by
      intro g hg
      rw [mfiles, removeFile_false_def]
      simp only [List.mem_filter]
      refine ⟨hpres g (List.mem_cons_of_mem f hg), ?_⟩
      have hgne : g ≠ f := fun hEq => hndc.1 (hEq ▸ hg)
      simp [hgne]
    have hclean' : ∀ g ∈ done ++ [f], ∀ i, 0 < i → i < g.length →
        g.take i ∈ ((walkUp false (removeFileFS st.1 f false) f.dropLast).1).dirs →
        hasEntriesFS ((walkUp false (removeFileFS st.1 f false) f.dropLast).1) (g.take i)
          = true := by
      intro g hg i h0 hi hmemW
      by_cases hform : ∃ j, 0 < j ∧ j ≤ (f.dropLast).length ∧ g.take i = (f.dropLast).take j
      · obtain ⟨j, hj0, hjle, hEq⟩ := hform
        rw [hEq] at hmemW ⊢
        exact mclean j hj0 hjle hmemW
      · rcases List.mem_append.1 hg with hgdone | hgf
        · have hdst : g.take i ∈ st.1.dirs := by
            have h1 := msub _ hmemW
            rw [removeFile_false_def] at h1
            exact h1
          have hprev : hasEntriesFS st.1 (g.take i) = true := hclean g hgdone i h0 hi hdst
          obtain ⟨e, he, hene, hedl⟩ := hasEntries_elim st.1 _ hprev
          rcases he with hef | hed
          · by_cases hef2 : e = f
            · exfalso
              subst hef2
              have hdne : g.take i ≠ [] := take_ne_nil_of_pos g i h0 (Nat.le_of_lt hi)
              have hlen1 : 0 < (e.dropLast).length := by
                rcases Nat.eq_zero_or_pos (e.dropLast).length with hz | hpos
                · exfalso
                  apply hdne
                  rw [← hedl]
                  exact List.length_eq_zero.1 hz
                · exact hpos
              exact hform ⟨(e.dropLast).length, hlen1, Nat.le_refl _,
                by rw [List.take_length]; exact hedl.symm⟩
            · have heW : e ∈ ((walkUp false (removeFileFS st.1 f false) f.dropLast).1).files := by
                rw [mfiles, removeFile_false_def]
                simp only [List.mem_filter]
                exact ⟨hef, by simp [hef2]⟩
              exact hasEntries_of_file_child _ e _ heW hene hedl
          · by_cases heW : e ∈ ((walkUp false (removeFileFS st.1 f false) f.dropLast).1).dirs
            · exact hasEntries_of_dir_child _ e _ heW hene hedl
            · exfalso
              have hefsA : e ∈ (removeFileFS st.1 f false).dirs := by
                rw [removeFile_false_def]
                exact hed
              obtain ⟨k, hk0, hkle, hkEq⟩ := mrem e hefsA heW
              have hk' : k - 1 + 1 = k := Nat.sub_add_cancel hk0
              have hstep2 : e.dropLast = (f.dropLast).take (k - 1) := by
                rw [hkEq, ← hk', take_succ_dropLast (f.dropLast) (k - 1) (by omega)]
                congr 1
              by_cases hk1 : k = 1
              · have hdne : g.take i ≠ [] := take_ne_nil_of_pos g i h0 (Nat.le_of_lt hi)
                apply hdne
                rw [← hedl, hstep2, hk1]
                simp
              · exact hform ⟨k - 1, by omega, by omega, by rw [← hedl, hstep2]⟩
        · exfalso
          have hgf' : g = f := List.mem_singleton.1 hgf
          subst hgf'
          have hile : i ≤ (g.dropLast).length := by
            rw [List.length_dropLast]
            omega
          exact hform ⟨i, h0, hile, (dropLast_take_comm g i (by omega)).symm⟩
    obtain ⟨iWF, isub, iclean⟩ := ih
      ((walkUp false (removeFileFS st.1 f false) f.dropLast).1,
        st.2 ++ (walkUp false (removeFileFS st.1 f false) f.dropLast).2)
      (done ++ [f]) mWF hpres' hndc.2 hclean'
    refine ⟨iWF, ?_, ?_⟩
    · intro d hd
      have h1 := isub d hd
      have h2 := msub d h1
      rw [removeFile_false_def] at h2
      exact h2
    · intro g hg i h0 hi hmem
      exact iclean g
        (by simp only [List.append_assoc, List.singleton_append]; exact hg) i h0 hi hmem

theorem writeFile_files_nodup (fs : FS) (p : FPath) (h : fs.files.Nodup) :
    (writeFileFS fs p false).files.Nodup := by
  unfold writeFileFS
  simp only [Bool.false_eq_true, if_false]
  by_cases hc : fs.files.contains p = true
  · rw [if_pos hc]
    exact h
  · rw [if_neg hc]
    have hp : p ∉ fs.files := by
      intro hmem
      exact hc (by simpa [List.elem_iff] using hmem)
    exact List.nodup_append.2
      ⟨h, List.nodup_singleton p, fun a ha hb => hp ((List.mem_singleton.1 hb) ▸ ha)⟩

theorem articleFold_files_nodup :
    ∀ (l : List Article) (st : FS × List FPath), st.1.files.Nodup →
      ((l.foldl
        (fun (st : FS × List FPath) a =>
          (writeFileFS (ensureDirFS st.1 (segsOf a.path) false)
            (segsOf a.path ++ [idxSeg]) false,
           st.2 ++ [segsOf a.path ++ [idxSeg]]))
        st).1).files.Nodup := by
  intro l
  induction l with
  | nil => intro st h; exact h
  | cons a l ih =>
    intro st h
    simp only [List.foldl_cons]
    exact ih _ (writeFile_files_nodup _ _ (by rw [ensureDir_files]; exact h))

theorem landingFold_files_nodup :
    ∀ (l : List SectionModel) (st : FS × List FPath), st.1.files.Nodup →
      ((l.foldl
        (fun (st : FS × List FPath) s =>
          (writeFileFS (ensureDirFS st.1 [s.path] false) [s.path, idxSeg] false,
           st.2 ++ [[s.path, idxSeg]]))
        st).1).files.Nodup := by
  intro l
  induction l with
  | nil => intro st h; exact h
  | cons s l ih =>
    intro st h
    simp only [List.foldl_cons]
    exact ih _ (writeFile_files_nodup _ _ (by rw [ensureDir_files]; exact h))

theorem writePhase_files_nodup (args : Args) (hd : args.dryRun = false)
    (sections : List SectionModel) (sorted : List Article) (fs0 : FS)
    (h : fs0.files.Nodup) : ((writePhase args sections sorted fs0).1).files.Nodup := by
  unfold writePhase
  rw [hd]
  apply articleFold_files_nodup
  split
  · apply landingFold_files_nodup
    split
    · exact writeFile_files_nodup _ _ (by rw [ensureDir_files]; exact h)
    · exact h
  · split
    · exact writeFile_files_nodup _ _ (by rw [ensureDir_files]; exact h)
    · exact h

/-- Claim C1: pruning correctness.  For any well-formed prior output tree
with distinct file paths and any input, after a successful real run (a)
every index.html in the final tree is the home page (when enabled), a
section landing (when enabled) or the page of a surviving article; (b)
every stale index.html reported by the run has been deleted; and (c) on
the parent chain of every deleted stale file, up to but excluding the
output root, no directory that is still present is empty — every parent
directory made empty by the deletions has been removed. -/
theorem c1_prune_correctness (args : Args) (data : InputData) (fs0 fs : FS)
    (r : RunSummary) (hd : args.dryRun = false) (hwf : WF fs0)
    (hnd : fs0.files.Nodup)
    (hok : runModel args data fs0 = (fs, .ok r)) :
    (∀ f ∈ fs.files, f.getLast? = some idxSeg →
        f ∈ expectedIndexFiles args (sectionsOf args data) (sortedOf args data)) ∧
    (∀ f ∈ r.staleFiles, f ∉ fs.files) ∧
    (∀ f ∈ r.staleFiles, ∀ i, 0 < i → i < f.length →
        f.take i ∈ fs.dirs → hasEntriesFS fs (f.take i) = true) := by
  have h2 : (runModel args data fs0).2 = .ok r := by rw [hok]
  obtain ⟨hmiss, hr⟩ := runModel_ok_elim args data fs0 r h2
  have h1 : (runModel args data fs0).1 = fs := by rw [hok]
  have hfs := runModel_fs_eq args data fs0 hmiss
  rw [hd, h1] at hfs
  have hWFw : WF (writePhase args (sectionsOf args data) (sortedOf args data) fs0).1 :=
    WF_writePhase args hd _ _ fs0 hwf
  have hNDw :
      ((writePhase args (sectionsOf args data) (sortedOf args data) fs0).1).files.Nodup :=
    writePhase_files_nodup args hd _ _ fs0 hnd
  have hSsub : ∀ f ∈ staleValues
        (expectedIndexFiles args (sectionsOf args data) (sortedOf args data))
        (writePhase args (sectionsOf args data) (sortedOf args data) fs0).1,
      f ∈ ((writePhase args (sectionsOf args data) (sortedOf args data) fs0).1).files :=
    fun f hf => ((staleValues_mem _ _ f).1 hf).1
  have hSND : (staleValues
      (expectedIndexFiles args (sectionsOf args data) (sortedOf args data))
      (writePhase args (sectionsOf args data) (sortedOf args data) fs0).1).Nodup :=
    hNDw.filter _
  obtain ⟨pWF, psub, pclean⟩ := pruneFold_clean
    (staleValues (expectedIndexFiles args (sectionsOf args data) (sortedOf args data))
      (writePhase args (sectionsOf args data) (sortedOf args data) fs0).1)
    ((writePhase args (sectionsOf args data) (sortedOf args data) fs0).1, ([] : List FPath))
    [] hWFw hSsub hSND (fun g hg => absurd hg (List.not_mem_nil g))
  have hfilesmem : ∀ q, q ∈ fs.files ↔
      (q ∈ ((prunePhase false
          (staleValues (expectedIndexFiles args (sectionsOf args data) (sortedOf args data))
            (writePhase args (sectionsOf args data) (sortedOf args data) fs0).1)
          (writePhase args (sectionsOf args data) (sortedOf args data) fs0).1).1).files ∨
        q = [searchSeg]) := by
    intro q
    rw [hfs, writeFile_files_mem, ensureDir_files]
  have hdirseq : fs.dirs = ((prunePhase false
      (staleValues (expectedIndexFiles args (sectionsOf args data) (sortedOf args data))
        (writePhase args (sectionsOf args data) (sortedOf args data) fs0).1)
      (writePhase args (sectionsOf args data) (sortedOf args data) fs0).1).1).dirs := by
    rw [hfs, writeFile_false_dirs, ensureDir_false_def]
    simp
  refine ⟨?_, ?_, ?_⟩
  · intro f hf hlast
    rcases (hfilesmem f).1 hf with hP | rfl
    · have hWS := (prunePhase_files_mem _ _ f).1 hP
      by_contra hnotE
      exact hWS.2 ((staleValues_mem _ _ f).2 ⟨hWS.1, hlast, hnotE⟩)
    · exfalso
      rw [show ([searchSeg] : FPath).getLast? = some searchSeg from rfl] at hlast
      exact absurd (Option.some.inj hlast) (by decide)
  · intro f hfS hmem
    have hfS' : f ∈ staleValues
        (expectedIndexFiles args (sectionsOf args data) (sortedOf args data))
        (writePhase args (sectionsOf args data) (sortedOf args data) fs0).1 := by
      rw [hr] at hfS
      exact hfS
    rcases (hfilesmem f).1 hmem with hP | rfl
    · exact ((prunePhase_files_mem _ _ f).1 hP).2 hfS'
    · have hlast := ((staleValues_mem _ _ _).1 hfS').2.1
      rw [show ([searchSeg] : FPath).getLast? = some searchSeg from rfl] at hlast
      exact absurd (Option.some.inj hlast) (by decide)
  · intro f hfS i h0 hi hdir
    have hfS' : f ∈ staleValues
        (expectedIndexFiles args (sectionsOf args data) (sortedOf args data))
        (writePhase args (sectionsOf args data) (sortedOf args data) fs0).1 := by
      rw [hr] at hfS
      exact hfS
    have hdirP : f.take i ∈ ((prunePhase false
        (staleValues (expectedIndexFiles args (sectionsOf args data) (sortedOf args data))
          (writePhase args (sectionsOf args data) (sortedOf args data) fs0).1)
        (writePhase args (sectionsOf args data) (sortedOf args data) fs0).1).1).dirs := by
      rw [← hdirseq]
      exact hdir
    have hcleanP := pclean f (by simpa using hfS') i h0 hi hdirP
    refine hasEntries_mono _ fs _ ?_ ?_ hcleanP
    · exact fun p hp => (hfilesmem p).2 (Or.inl hp)
    · intro p hp
      rw [hdirseq]
      exact hp

/-- Witness for c1_prune_correctness: a prior tree holding one stale page
old/index.html inside directory old; the run deletes the stale page,
removes the emptied directory and leaves only the home page and the
search index. -/
theorem c1_witness :
    defaultArgs.dryRun = false ∧
    WF ⟨[["old".toList, idxSeg]], [["old".toList]]⟩ ∧
    ((∀ f ∈ (FS.mk [[idxSeg], [searchSeg]] []).files, f.getLast? = some idxSeg →
        f ∈ expectedIndexFiles defaultArgs (sectionsOf defaultArgs ⟨[]⟩)
          (sortedOf defaultArgs ⟨[]⟩)) ∧
      (∀ f ∈ (RunSummary.mk [[idxSeg]] [] [["old".toList, idxSeg]] [["old".toList]] [] []
          []).staleFiles, f ∉ (FS.mk [[idxSeg], [searchSeg]] []).files) ∧
      (∀ f ∈ (RunSummary.mk [[idxSeg]] [] [["old".toList, idxSeg]] [["old".toList]] [] []
          []).staleFiles, ∀ i, 0 < i → i < f.length →
        f.take i ∈ (FS.mk [[idxSeg], [searchSeg]] []).dirs →
        hasEntriesFS (FS.mk [[idxSeg], [searchSeg]] []) (f.take i) = true)) :=
  ⟨rfl, by unfold WF; decide,
    c1_prune_correctness defaultArgs ⟨[]⟩ ⟨[["old".toList, idxSeg]], [["old".toList]]⟩
      (FS.mk [[idxSeg], [searchSeg]] [])
      (RunSummary.mk [[idxSeg]] [] [["old".toList, idxSeg]] [["old".toList]] [] [] [])
      rfl (by unfold WF; decide) (by decide) (by decide)⟩

end KB
